import Mathlib

/-!
Verification of the two algorithmic cores of `pygmsh/helpers.py`:

* `orient_lines` (lines 28-64): reordering and reorienting an unordered set of
  line segments forming one simple closed polygon.
* the post-processing tail of `generate_mesh` (lines 178-236): cell-type
  filtering (`remove_lower_dim_cells`), vertex pruning (`prune_vertices`) and
  the z-axis reduction (`prune_z_0`).

The Python code is embedded shallowly: point ids are `Nat`, coordinates are
`ℚ`, numpy arrays are `List`s, and failure (out-of-range indexing /
`numpy.concatenate` of an empty sequence) is `Option.none`.
-/

/-- Modelled from the spec: a line segment is "an ordered pair of point
identifiers (tail, head) plus a sign flag indicating whether the stored order
matches its canonical/input orientation"; the pygmsh `Line` class itself is not
part of `helpers.py`.  `line.points[0].id, line.points[1].id` read the stored
pair (the `.1` component) and negation (`-line`) toggles the sign flag. -/
abbrev Seg : Type := (Nat × Nat) × Bool

/-- The unordered (undirected) edge underlying an ordered endpoint-id pair,
normalised as (min, max). -/
def undir (p : Nat × Nat) : Nat × Nat := (min p.1 p.2, max p.1 p.2)

/-- The undirected edges of the path `vs.head - ... - vs.getLast`. -/
def pathEdges : List Nat → List (Nat × Nat)
  | a :: b :: rest => undir (a, b) :: pathEdges (b :: rest)
  | _ => []

/-- The undirected edges of the simple cycle through `vs` in order
(including the closing edge back to `vs.head`). -/
def cycleEdges : List Nat → List (Nat × Nat)
  | [] => []
  | h :: t => pathEdges ((h :: t) ++ [h])

/-- The input's endpoint ids form exactly one simple cycle: the multiset of its
undirected edges is that of a simple cycle through some duplicate-free,
nonempty vertex list. -/
def OneCycle (ps : List (Nat × Nat)) : Prop :=
  ∃ vs : List Nat, vs ≠ [] ∧ vs.Nodup ∧ List.Perm (ps.map undir) (cycleEdges vs)

/-- Working entry of `orient_lines`' main loop: `pair` is the row of the
mutable `point_pair_ids` array, `ori` the entry of the `oriented` array, and
`orig` the input line this row was built from (the source keeps the latter via
the `order` index array; we carry the line itself). -/
structure Ent where
  pair : Nat × Nat
  orig : Seg
  ori : Bool
deriving DecidableEq

/-- `numpy.flip(..., axis=1)` on one row together with `oriented[...] ^= True`
for the same position. -/
def flipEnt (e : Ent) : Ent := ⟨(e.pair.2, e.pair.1), e.orig, !e.ori⟩

/-- Initial entry for an input line: `point_pair_ids` row = stored pair,
`oriented` = `True`. -/
def mkEnt (l : Seg) : Ent := ⟨l.1, l, true⟩

/-- Undirected edge of a working entry. -/
def entEdge (e : Ent) : Nat × Nat := undir e.pair

/-- Invariant tying the working row to the entry's input line: the row holds
the stored pair, reversed iff the entry has been flipped an odd number of
times. -/
def WFEnt (e : Ent) : Prop :=
  e.pair = if e.ori then e.orig.1 else (e.orig.1.2, e.orig.1.1)

instance (e : Ent) : Decidable (WFEnt e) := by unfold WFEnt; infer_instance

/-- Index of the first element satisfying `p`: the `wh[0]` of
`numpy.where(...)[0]`. -/
def firstIdx {α : Type} (p : α → Prop) [DecidablePred p] : List α → Option Nat
  | [] => none
  | a :: l => if p a then some 0 else (firstIdx p l).map (· + 1)

/-- Effect on the unplaced pool of the source's swap
`point_pair_ids[[j, wh[0]]] = point_pair_ids[[wh[0], j]]` followed by placing
position `j`: the chosen element (at relative index `r`) leaves the pool, and
the element formerly at the pool's front takes its place. -/
def swapOut (p : Ent) (rest : List Ent) : Nat → List Ent
  | 0 => rest
  | r + 1 => rest.set r p

/-- The main loop of `orient_lines` (`helpers.py` lines 44-58), presented by
recursion over the unplaced pool `point_pair_ids[j:]` (the source never
rereads positions below `j` except `point_pair_ids[j-1, 1]`, which is the
argument `out`).  First search the pool's stored tails for `out`; failing
that, search the stored heads, flip the whole remaining pool
(`numpy.flip(point_pair_ids[j:], axis=1)`, `oriented[j:] ^= True`) and use the
index found among the heads.  If both searches fail the source hits `wh[0]` on
an empty index array (an out-of-range access), modelled as `none`. -/
def orientGo (out : Nat) (pool : List Ent) : Option (List Ent) :=
  match pool with
  | [] => some []
  | p :: rest =>
    match firstIdx (fun e => e.pair.1 = out) (p :: rest) with
    | some r =>
      let e := (p :: rest).getD r p
      (orientGo e.pair.2 (swapOut p rest r)).map (fun res => e :: res)
    | none =>
      match firstIdx (fun e => e.pair.2 = out) (p :: rest) with
      | none => none
      | some r =>
        let q := flipEnt p
        let qrest := rest.map flipEnt
        let e := (q :: qrest).getD r q
        (orientGo e.pair.2 (swapOut q qrest r)).map (fun res => e :: res)
termination_by pool.length
decreasing_by
  all_goals cases r <;> simp [swapOut, List.length_set]

/-- Reconstruction step `lines[j] if oriented[j] else -lines[j]`
(`helpers.py` line 62); negation toggles the sign flag. -/
def outLine (e : Ent) : Seg := if e.ori then e.orig else (e.orig.1, !e.orig.2)

/-- `orient_lines` (`helpers.py` lines 28-64).  The first line is fixed
(`j` starts at 1, position 0 is never swapped or flipped); the loop chains the
rest; finally the lines are reordered and reoriented. -/
def orient_lines (lines : List Seg) : Option (List Seg) :=
  match lines with
  | [] => some []
  | l :: ls =>
    (orientGo l.1.2 (ls.map mkEnt)).map (fun res => (mkEnt l :: res).map outLine)

/-- `orient_lines` on plain (all sign `+1`) input pairs. -/
def orientPairs (ps : List (Nat × Nat)) : Option (List Seg) :=
  orient_lines (ps.map (fun p => (p, true)))

/-- Fuel-indexed twin of `orientGo` (identical branch structure, structurally
recursive on the fuel so that concrete runs reduce in the kernel); with fuel
`≥ pool.length` it agrees with `orientGo` (`orientGo_eq_fuel`). -/
def orientGoFuel : Nat → Nat → List Ent → Option (List Ent)
  | _, _, [] => some []
  | 0, _, _ :: _ => none
  | n + 1, out, p :: rest =>
    match firstIdx (fun e => e.pair.1 = out) (p :: rest) with
    | some r =>
      let e := (p :: rest).getD r p
      (orientGoFuel n e.pair.2 (swapOut p rest r)).map (fun res => e :: res)
    | none =>
      match firstIdx (fun e => e.pair.2 = out) (p :: rest) with
      | none => none
      | some r =>
        let q := flipEnt p
        let qrest := rest.map flipEnt
        let e := (q :: qrest).getD r q
        (orientGoFuel n e.pair.2 (swapOut q qrest r)).map (fun res => e :: res)

/-- Executable twin of `orient_lines`, via `orientGoFuel`. -/
def orient_linesE (lines : List Seg) : Option (List Seg) :=
  match lines with
  | [] => some []
  | l :: ls =>
    (orientGoFuel ls.length l.1.2 (ls.map mkEnt)).map
      (fun res => (mkEnt l :: res).map outLine)

/-- Effective (traversal-order) endpoint pair of a signed segment: stored pair
if the sign is `+1`, reversed pair if `-1`. -/
def effPair (l : Seg) : Nat × Nat := if l.2 then l.1 else (l.1.2, l.1.1)

/-- `ChainTo a E b`: the pairs of `E` chain left to right, the first starting
at `a` and the last ending at `b` (for `E = []`, `a = b`). -/
def ChainTo : Nat → List (Nat × Nat) → Nat → Prop
  | a, [], b => a = b
  | a, q :: qs, b => q.1 = a ∧ ChainTo q.2 qs b

instance instDecChainTo : (a : Nat) → (l : List (Nat × Nat)) → (b : Nat) →
    Decidable (ChainTo a l b)
  | a, [], b => by unfold ChainTo; exact Nat.decEq a b
  | a, q :: qs, b => by
      unfold ChainTo
      exact @instDecidableAnd _ _ _ (instDecChainTo q.2 qs b)

/-- Cyclic chaining: each pair's second component equals the next pair's first
component, wrapping from the last back to the first. -/
def CyclicChain (E : List (Nat × Nat)) : Prop :=
  ∀ i (hi : i < E.length),
    (E.get ⟨i, hi⟩).2 =
      (E.get ⟨(i + 1) % E.length, Nat.mod_lt _ (Nat.lt_of_le_of_lt (Nat.zero_le i) hi)⟩).1

instance (E : List (Nat × Nat)) : Decidable (CyclicChain E) := by
  unfold CyclicChain; exact Nat.decidableBallLT _ _

/-- Adjacent chaining of a pair list (no wrap-around). -/
def AdjChained : List (Nat × Nat) → Prop
  | p :: q :: rest => p.2 = q.1 ∧ AdjChained (q :: rest)
  | _ => True

instance instDecAdjChained : (l : List (Nat × Nat)) → Decidable (AdjChained l)
  | [] => by unfold AdjChained; infer_instance
  | [p] => by unfold AdjChained; infer_instance
  | p :: q :: rest => by
      unfold AdjChained
      exact @instDecidableAnd _ _ _ (instDecAdjChained (q :: rest))

/-- Chaining of a pool of working entries, starting at `out`. -/
def PoolChain : Nat → List Ent → Prop
  | _, [] => True
  | out, e :: rest => e.pair.1 = out ∧ PoolChain e.pair.2 rest

instance instDecPoolChain : (out : Nat) → (l : List Ent) → Decidable (PoolChain out l)
  | _, [] => by unfold PoolChain; infer_instance
  | out, e :: rest => by
      unfold PoolChain
      exact @instDecidableAnd _ _ _ (instDecPoolChain e.pair.2 rest)

/-! ### `orient_lines` as an index-based state machine

A second, literal rendering of the loop of `helpers.py` lines 40-58, used for
the frame property: the state carries the local variables of the function,
including the input list `lines`, and each iteration assigns only to
`point_pair_ids` (`pp`), `order` and `oriented`. -/

/-- The local variables of `orient_lines` during its loop. -/
structure LoopState where
  lines : List Seg
  pp : List (Nat × Nat)
  order : List Nat
  oriented : List Bool
deriving DecidableEq

/-- `numpy.where(pred(arr[j:]))[0][0] + j`: first index `≥ j` whose element
satisfies `p`, or `none` when the index array is empty. -/
def firstIdxFrom {α : Type} (p : α → Prop) [DecidablePred p] (l : List α) (j : Nat) :
    Option Nat :=
  (firstIdx p (l.drop j)).map (· + j)

/-- Simultaneous fancy-index swap `a[[i, k]] = a[[k, i]]`. -/
def listSwap {α : Type} (l : List α) (i k : Nat) (d : α) : List α :=
  (l.set i (l.getD k d)).set k (l.getD i d)

/-- One iteration of the loop body (`helpers.py` lines 45-58) at index `j`:
read `out = pp[j-1, 1]`; search `pp[j:, 0]` for `out`; failing that search
`pp[j:, 1]`, flip `pp[j:]` and toggle `oriented[j:]`; finally swap positions
`j` and `wh[0]` of `pp` and `order` (`wh[0]` of an empty `wh` is the source's
out-of-range access, modelled as `none`). -/
def loopBody (s : LoopState) (j : Nat) : Option LoopState :=
  let out := (s.pp.getD (j - 1) (0, 0)).2
  match firstIdxFrom (fun q => q.1 = out) s.pp j with
  | some k =>
    some { s with pp := listSwap s.pp j k (0, 0), order := listSwap s.order j k 0 }
  | none =>
    let wh := firstIdxFrom (fun q => q.2 = out) s.pp j
    let pp1 := s.pp.take j ++ (s.pp.drop j).map (fun q => (q.2, q.1))
    let or1 := s.oriented.take j ++ (s.oriented.drop j).map (fun b => !b)
    match wh with
    | none => none
    | some k =>
      some { s with pp := listSwap pp1 j k (0, 0), order := listSwap s.order j k 0,
                    oriented := or1 }

/-- Initial state (`helpers.py` lines 34-42): `pp` is a freshly built array of
the input lines' stored id pairs, `order = arange(n)`, `oriented` all `True`. -/
def initState (lines : List Seg) : LoopState :=
  ⟨lines, lines.map (fun l => l.1), List.range lines.length,
    List.replicate lines.length true⟩

/-- The whole loop `for j in range(1, len(point_pair_ids))`. -/
def runLoop (s : LoopState) : Option LoopState :=
  (List.range' 1 (s.pp.length - 1)).foldlM loopBody s

/-- `orient_lines` via the state machine: run the loop, then rebuild the output
(`helpers.py` lines 61-62) by permuting the input list along `order` and
negating the positions with `oriented[j] = False`. -/
def orientState (lines : List Seg) : Option (List Seg) :=
  (runLoop (initState lines)).map (fun s =>
    let perm := s.order.map (fun o => lines.getD o ((0, 0), true))
    (perm.zip s.oriented).map (fun lb => if lb.2 then lb.1 else (lb.1.1, !lb.1.2)))

/-! ### The `generate_mesh` post-processing pipeline

`helpers.py` lines 178-236.  Coordinates and data values are modelled as `ℚ`
(the source holds IEEE doubles; the stages only subset, reshape and compare
them, which `ℚ` represents structurally). -/

/-- A meshio `CellBlock`: a type tag and the list of cell vertex-id tuples. -/
structure CellBlock where
  type : String
  cells : List (List Nat)
deriving DecidableEq

/-- A meshio `Mesh`: points, cell blocks, per-point data arrays (one value per
point) and per-cell-block data (for each field name, one array per block,
positionally aligned with `cells`). -/
structure Mesh where
  points : List (List ℚ)
  cells : List CellBlock
  point_data : List (String × List ℚ)
  cell_data : List (String × List (List ℚ))
deriving DecidableEq

/-- `cells_2d = {"triangle", "quad"}` (`helpers.py` line 180). -/
def cells_2d : List String := ["triangle", "quad"]

/-- `cells_3d` (`helpers.py` lines 181-188). -/
def cells_3d : List String :=
  ["tetra", "hexahedron", "wedge", "pyramid", "penta_prism", "hexa_prism"]

/-- `keep_types` selection (`helpers.py` lines 189-194): tier-3 wins, else
tier-2, else every present type. -/
def keepTypes (cs : List CellBlock) : List String :=
  if cs.any (fun c => decide (c.type ∈ cells_3d)) then cells_3d
  else if cs.any (fun c => decide (c.type ∈ cells_2d)) then cells_2d
  else cs.map (fun c => c.type)

/-- The `remove_lower_dim_cells` stage (`helpers.py` lines 178-200): keep the
blocks whose type is in `keep_types`, and drop, in lockstep, the cell-data
entries zipped with removed blocks. -/
def filterCells (m : Mesh) : Mesh :=
  let keep := keepTypes m.cells
  { m with
    cell_data := m.cell_data.map (fun nv =>
      (nv.1, (nv.2.zip m.cells).filterMap
        (fun dc => if dc.2.type ∈ keep then some dc.1 else none))),
    cells := m.cells.filter (fun c => decide (c.type ∈ keep)) }

/-- `numpy.concatenate` over a sequence of arrays: fails on an empty sequence
("need at least one array to concatenate"). -/
def npConcat1 {α : Type} (ls : List (List α)) : Option (List α) :=
  match ls with
  | [] => none
  | _ => some ls.flatten

/-- Insertion into a strictly-sorted duplicate-free ascending list. -/
def insertSorted (x : Nat) : List Nat → List Nat
  | [] => [x]
  | y :: ys =>
    if x < y then x :: y :: ys
    else if x = y then y :: ys
    else y :: insertSorted x ys

/-- `numpy.unique`: the sorted ascending list of distinct values. -/
def dedupSort (l : List Nat) : List Nat := l.foldr insertSorted []

/-- Fancy indexing `rows[idxs]`: fails (IndexError) when an index is out of
range. -/
def subsetIdx {α : Type} (rows : List α) (idxs : List Nat) : Option (List α) :=
  idxs.mapM (fun i => rows.get? i)

/-- The `prune_vertices` stage (`helpers.py` lines 202-219).
`ncells` flattens every block's tuples in order (two nested
`numpy.concatenate`s, each failing on an empty sequence); `uvertices` is the
sorted list of distinct referenced ids; each tuple entry is rewritten to the
index of its id in `uvertices` (the `return_inverse` array, resliced blockwise
— elementwise identical); points and every per-point data array are subset by
`uvertices`. -/
def pruneVertices (m : Mesh) : Option Mesh := do
  let blockFlat ← m.cells.mapM (fun c => npConcat1 c.cells)
  let ncells ← npConcat1 blockFlat
  let uvertices := dedupSort ncells
  let newCells := m.cells.map (fun c =>
    { c with cells := c.cells.map (fun t => t.map (fun v => uvertices.indexOf v)) })
  let newPoints ← subsetIdx m.points uvertices
  let newPD ← m.point_data.mapM (fun kv =>
    (subsetIdx kv.2 uvertices).map (fun a => (kv.1, a)))
  pure { m with cells := newCells, points := newPoints, point_data := newPD }

/-- The `prune_z_0` stage (`helpers.py` lines 231-236): when the points have 3
columns and every third component is `< 1e-13` in absolute value, drop the
third column. -/
def pruneZ0 (pts : List (List ℚ)) : List (List ℚ) :=
  if (∀ p ∈ pts, p.length = 3) ∧ (∀ p ∈ pts, |p.getD 2 0| < 1 / 10 ^ 13)
  then pts.map (fun p => p.take 2)
  else pts

/-- The post-processing tail of `generate_mesh` (`helpers.py` lines 178-236),
with its three flags, in source order: cell filtering, vertex pruning, z
reduction. -/
def postprocess (m : Mesh) (remove_lower_dim_cells prune_vertices_flag prune_z_0 : Bool) :
    Option Mesh :=
  let m1 := if remove_lower_dim_cells then filterCells m else m
  let m2opt := if prune_vertices_flag then pruneVertices m1 else some m1
  m2opt.map (fun m2 =>
    { m2 with points := if prune_z_0 then pruneZ0 m2.points else m2.points })

/-- The ids referenced by the cells of a mesh. -/
def Referenced (m : Mesh) (v : Nat) : Prop :=
  ∃ c ∈ m.cells, ∃ t ∈ c.cells, v ∈ t

/-- All cell vertex ids of a mesh, flattened in traversal order (the `ncells`
array of `helpers.py` line 204 on success). -/
def cellIds (m : Mesh) : List Nat :=
  (m.cells.map (fun c => c.cells.flatten)).flatten

/-- A small concrete mesh exercising the pruning pipeline: three points, one
line block referencing points 2 and 1 only, one per-point data field. -/
def exMesh : Mesh :=
  { points := [[0], [1], [2]],
    cells := [⟨"line", [[2, 1]]⟩],
    point_data := [("d", [5, 6, 7])],
    cell_data := [] }

/-! ## Helper lemmas: undirected edges, paths and cycles -/

theorem undir_comm (a b : Nat) : undir (a, b) = undir (b, a) := by
  simp [undir, Nat.min_comm, Nat.max_comm]

theorem undir_eq_iff {p q : Nat × Nat} : undir p = undir q ↔ p = q ∨ p = (q.2, q.1) := by
  obtain ⟨a, b⟩ := p
  obtain ⟨c, d⟩ := q
  simp only [undir, Prod.mk.injEq, Prod.ext_iff]
  omega

theorem mem_pathEdges_split {u : Nat × Nat} :
    ∀ {l : List Nat}, u ∈ pathEdges l →
      ∃ l₁ x y l₂, l = l₁ ++ x :: y :: l₂ ∧ u = undir (x, y)
  | [], h => by simp [pathEdges] at h
  | [a], h => by simp [pathEdges] at h
  | a :: b :: t, h => by
    rcases List.mem_cons.mp h with h | h
    · exact ⟨[], a, b, t, rfl, h⟩
    · obtain ⟨l₁, x, y, l₂, heq, hu⟩ := mem_pathEdges_split h
      exact ⟨a :: l₁, x, y, l₂, by rw [heq]; rfl, hu⟩

theorem pathEdges_concat :
    ∀ (l : List Nat) (x y : Nat), l.getLast? = some x →
      pathEdges (l ++ [y]) = pathEdges l ++ [undir (x, y)]
  | [], x, y => by intro h; simp at h
  | [a], x, y => by
    intro h
    simp only [List.getLast?_singleton, Option.some.injEq] at h
    subst h
    simp [pathEdges]
  | a :: b :: t, x, y => by
    intro h
    rw [List.getLast?_cons_cons] at h
    show undir (a, b) :: pathEdges ((b :: t) ++ [y]) = _
    rw [pathEdges_concat (b :: t) x y h]
    rfl

theorem pathEdges_reverse_perm :
    ∀ l : List Nat, List.Perm (pathEdges l.reverse) (pathEdges l)
  | [] => by simp
  | [a] => by simp
  | a :: b :: t => by
    have h1 : (a :: b :: t).reverse = (b :: t).reverse ++ [a] := by simp
    have h2 : (b :: t).reverse.getLast? = some b := by
      rw [List.getLast?_reverse]; rfl
    rw [h1, pathEdges_concat _ b a h2,
      show undir (b, a) = undir (a, b) from undir_comm b a]
    exact (List.perm_append_singleton _ _).trans
      (List.Perm.cons _ (pathEdges_reverse_perm (b :: t)))

theorem cycleEdges_rotate1 (a : Nat) (t : List Nat) :
    List.Perm (cycleEdges (a :: t)) (cycleEdges (t ++ [a])) := by
  match t with
  | [] => simp
  | b :: t' =>
    show List.Perm (undir (a, b) :: pathEdges ((b :: t') ++ [a]))
      (cycleEdges ((b :: t') ++ [a]))
    have h2 : cycleEdges ((b :: t') ++ [a]) =
        pathEdges (((b :: t') ++ [a]) ++ [b]) := rfl
    rw [h2, pathEdges_concat _ a b (List.getLast?_concat _)]
    exact (List.perm_append_singleton _ _).symm

theorem cycleEdges_rotate :
    ∀ (l₁ l₂ : List Nat), List.Perm (cycleEdges (l₁ ++ l₂)) (cycleEdges (l₂ ++ l₁))
  | [], l₂ => by simp
  | a :: l₁, l₂ => by
    have h1 := cycleEdges_rotate1 a (l₁ ++ l₂)
    have h2 := cycleEdges_rotate l₁ (l₂ ++ [a])
    have e1 : (l₁ ++ l₂) ++ [a] = l₁ ++ (l₂ ++ [a]) := by simp
    have e2 : (l₂ ++ [a]) ++ l₁ = l₂ ++ (a :: l₁) := by simp
    rw [e1] at h1
    rw [e2] at h2
    exact (h1.trans h2)

theorem cycleEdges_decomp {vs : List Nat} {h x : Nat}
    (hh : vs.head? = some h) (hx : vs.getLast? = some x) :
    List.Perm (cycleEdges vs) (undir (x, h) :: pathEdges vs) := by
  match vs, hh with
  | a :: t, hh =>
    simp only [List.head?_cons, Option.some.injEq] at hh
    subst hh
    show List.Perm (pathEdges ((a :: t) ++ [a])) _
    rw [pathEdges_concat _ x a hx]
    exact List.perm_append_singleton _ _

/-! ## Helper lemmas: the candidate search and the pool swap -/

theorem firstIdx_none_iff {α : Type} (p : α → Prop) [DecidablePred p] :
    ∀ l : List α, firstIdx p l = none ↔ ∀ a ∈ l, ¬ p a
  | [] => by simp [firstIdx]
  | a :: l => by
    by_cases h : p a <;>
      simp [firstIdx, h, Option.map_eq_none', firstIdx_none_iff p l]

theorem firstIdx_append {α : Type} (p : α → Prop) [DecidablePred p] :
    ∀ (l₁ : List α) (e : α) (l₂ : List α), (∀ a ∈ l₁, ¬ p a) → p e →
      firstIdx p (l₁ ++ e :: l₂) = some l₁.length
  | [], e, l₂ => by intro _ he; simp [firstIdx, he]
  | a :: l₁, e, l₂ => by
    intro h1 he
    have ha : ¬ p a := h1 a (by simp)
    rw [List.cons_append]
    simp only [firstIdx, if_neg ha,
      firstIdx_append p l₁ e l₂ (fun x hx => h1 x (by simp [hx])) he,
      Option.map_some']
    rfl

theorem firstIdx_some {α : Type} (p : α → Prop) [DecidablePred p] :
    ∀ (l : List α) (r : Nat), firstIdx p l = some r →
      r < l.length ∧ (∀ d, p (l.getD r d)) ∧ (∀ i d, i < r → ¬ p (l.getD i d))
  | [], r => by simp [firstIdx]
  | a :: l, r => by
    intro h
    by_cases ha : p a
    · simp only [firstIdx, if_pos ha, Option.some.injEq] at h
      subst h
      exact ⟨by simp, fun d => ha, fun i d hi => absurd hi (Nat.not_lt_zero i)⟩
    · simp only [firstIdx, if_neg ha, Option.map_eq_some'] at h
      obtain ⟨r', hr', rfl⟩ := h
      obtain ⟨h1, h2, h3⟩ := firstIdx_some p l r' hr'
      refine ⟨by simpa using h1, fun d => h2 d, ?_⟩
      intro i d hi
      match i with
      | 0 => exact ha
      | i + 1 => exact h3 i d (by omega)

theorem getD_append_length {α : Type} :
    ∀ (l₁ : List α) (e : α) (l₂ : List α) (d : α),
      (l₁ ++ e :: l₂).getD l₁.length d = e
  | [], e, l₂, d => rfl
  | a :: l₁, e, l₂, d => getD_append_length l₁ e l₂ d

theorem set_append_length {α : Type} :
    ∀ (l₁ : List α) (e : α) (l₂ : List α) (a : α),
      (l₁ ++ e :: l₂).set l₁.length a = l₁ ++ a :: l₂
  | [], e, l₂, a => rfl
  | b :: l₁, e, l₂, a => by
    simp only [List.cons_append, List.length_cons, List.set_cons_succ,
      set_append_length l₁ e l₂ a]

theorem swapOut_split {p : Ent} {rest l₁ l₂ : List Ent} {e : Ent}
    (h : p :: rest = l₁ ++ e :: l₂) :
    List.Perm (swapOut p rest l₁.length) (l₁ ++ l₂) := by
  match l₁, h with
  | [], h =>
    injection h with h1 h2
    subst h1
    subst h2
    exact List.Perm.refl _
  | a :: l₁, h =>
    injection h with h1 h2
    subst h1
    show List.Perm (swapOut p rest (l₁.length + 1)) _
    rw [show swapOut p rest (l₁.length + 1) = rest.set l₁.length p from rfl, h2,
      List.append_eq, set_append_length]
    exact List.perm_middle

theorem entEdge_flip (e : Ent) : entEdge (flipEnt e) = entEdge e := by
  simp only [entEdge, flipEnt]
  rw [undir_comm]

theorem orig_flip (e : Ent) : (flipEnt e).orig = e.orig := rfl

theorem WFEnt_flip {e : Ent} (h : WFEnt e) : WFEnt (flipEnt e) := by
  unfold WFEnt at h ⊢
  cases hb : e.ori <;> simp [flipEnt, hb] <;> rw [hb] at h <;> simp at h <;> simp [h]

theorem perm_extract {α β : Type} (f : α → β) {pool : List α} {u : β} {L : List β}
    (h : List.Perm (pool.map f) (u :: L)) :
    ∃ l₁ e l₂, pool = l₁ ++ e :: l₂ ∧ f e = u ∧ List.Perm ((l₁ ++ l₂).map f) L := by
  have hu : u ∈ pool.map f := h.mem_iff.mpr (List.mem_cons_self u L)
  obtain ⟨e, he, hfe⟩ := List.mem_map.mp hu
  obtain ⟨l₁, l₂, rfl⟩ := List.append_of_mem he
  refine ⟨l₁, e, l₂, rfl, hfe, ?_⟩
  have h1 : List.Perm (l₁.map f ++ f e :: l₂.map f) (u :: L) := by
    simpa using h
  have h2 : List.Perm (f e :: (l₁.map f ++ l₂.map f)) (u :: L) :=
    (List.perm_middle).symm.trans h1
  rw [hfe] at h2
  have h3 := h2.cons_inv
  simpa using h3

/-! ## Step equations for `orientGo` -/

theorem orientGo_cons_tail (out : Nat) (p : Ent) (rest : List Ent) (r : Nat)
    (h : firstIdx (fun f => f.pair.1 = out) (p :: rest) = some r) :
    orientGo out (p :: rest) =
      (orientGo ((p :: rest).getD r p).pair.2 (swapOut p rest r)).map
        (fun res => (p :: rest).getD r p :: res) := by
  rw [orientGo, h]

theorem orientGo_cons_flip (out : Nat) (p : Ent) (rest : List Ent) (r : Nat)
    (h1 : firstIdx (fun f => f.pair.1 = out) (p :: rest) = none)
    (h2 : firstIdx (fun f => f.pair.2 = out) (p :: rest) = some r) :
    orientGo out (p :: rest) =
      (orientGo ((flipEnt p :: rest.map flipEnt).getD r (flipEnt p)).pair.2
          (swapOut (flipEnt p) (rest.map flipEnt) r)).map
        (fun res => (flipEnt p :: rest.map flipEnt).getD r (flipEnt p) :: res) := by
  rw [orientGo, h1, h2]

theorem orientGo_cons_none (out : Nat) (p : Ent) (rest : List Ent)
    (h1 : firstIdx (fun f => f.pair.1 = out) (p :: rest) = none)
    (h2 : firstIdx (fun f => f.pair.2 = out) (p :: rest) = none) :
    orientGo out (p :: rest) = none := by
  rw [orientGo, h1, h2]

/-! ## The main loop invariant

If the unplaced pool's undirected edges form a simple path from `out` to `s`,
the loop succeeds and emits the pool's entries (flipped as needed), chained
from `out` to `s`. -/

theorem orientGo_path :
    ∀ (vs : List Nat) (pool : List Ent) (out s : Nat),
      vs.Nodup → vs.head? = some out → vs.getLast? = some s →
      List.Perm (pool.map entEdge) (pathEdges vs) →
      (∀ e ∈ pool, WFEnt e) →
      ∃ res, orientGo out pool = some res ∧
        List.Perm (res.map Ent.orig) (pool.map Ent.orig) ∧
        (∀ e ∈ res, WFEnt e) ∧
        ChainTo out (res.map Ent.pair) s
  | [], pool, out, s => by
    intro _ hh _ _ _
    simp at hh
  | [w], pool, out, s => by
    intro _ hh hs hperm _
    simp only [List.head?_cons, Option.some.injEq] at hh
    simp only [List.getLast?_singleton, Option.some.injEq] at hs
    have hpool : pool = [] := List.map_eq_nil.mp hperm.eq_nil
    subst hpool
    refine ⟨[], by simp [orientGo], List.Perm.refl _, by simp, ?_⟩
    show out = s
    omega
  | w₀ :: w₁ :: t, pool, out, s => by
    intro hnd hh hs hperm hwf
    simp only [List.head?_cons, Option.some.injEq] at hh
    subst hh
    rw [List.getLast?_cons_cons] at hs
    have hw0nin : w₀ ∉ w₁ :: t := (List.nodup_cons.mp hnd).1
    have hndt : (w₁ :: t).Nodup := (List.nodup_cons.mp hnd).2
    have hw01 : w₀ ≠ w₁ := fun h => hw0nin (h ▸ List.mem_cons_self _ _)
    have hpe : pathEdges (w₀ :: w₁ :: t) = undir (w₀, w₁) :: pathEdges (w₁ :: t) := rfl
    rw [hpe] at hperm
    obtain ⟨l₁, e, l₂, hsplit, hee, hrest⟩ := perm_extract entEdge hperm
    have hee' : undir e.pair = undir (w₀, w₁) := hee
    have hAvoid : ∀ f ∈ l₁ ++ l₂, f.pair.1 ≠ w₀ ∧ f.pair.2 ≠ w₀ := by
      intro f hf
      have hfe : entEdge f ∈ pathEdges (w₁ :: t) :=
        hrest.mem_iff.mp (List.mem_map_of_mem entEdge hf)
      obtain ⟨m₁, x, y, m₂, hm, hfu⟩ := mem_pathEdges_split hfe
      have hx : x ∈ w₁ :: t := by rw [hm]; simp
      have hy : y ∈ w₁ :: t := by rw [hm]; simp
      have hxo : x ≠ w₀ := fun h => hw0nin (h ▸ hx)
      have hyo : y ≠ w₀ := fun h => hw0nin (h ▸ hy)
      have hfu' : undir f.pair = undir (x, y) := hfu
      rcases undir_eq_iff.mp hfu' with h | h
      · rw [h]
        exact ⟨hxo, hyo⟩
      · rw [h]
        exact ⟨hyo, hxo⟩
    have hl₁ : ∀ f ∈ l₁, f.pair.1 ≠ w₀ ∧ f.pair.2 ≠ w₀ :=
      fun f hf => hAvoid f (List.mem_append_left _ hf)
    have hl₂ : ∀ f ∈ l₂, f.pair.1 ≠ w₀ ∧ f.pair.2 ≠ w₀ :=
      fun f hf => hAvoid f (List.mem_append_right _ hf)
    have hwfe : WFEnt e := hwf e (by rw [hsplit]; simp)
    obtain ⟨p, rest, hpr⟩ : ∃ p rest, pool = p :: rest := by
      match pool, hsplit with
      | p :: rest, _ => exact ⟨p, rest, rfl⟩
      | [], hsplit => exact absurd hsplit (by simp)
    subst hpr
    rcases undir_eq_iff.mp hee' with hpair | hpair
    · -- the chosen entry is stored as (w₀, w₁): found among the tails
      have hfi1 : firstIdx (fun f => f.pair.1 = w₀) (p :: rest) = some l₁.length := by
        rw [hsplit]
        exact firstIdx_append _ l₁ e l₂ (fun f hf => (hl₁ f hf).1) (by rw [hpair])
      have hget : (p :: rest).getD l₁.length p = e := by
        rw [hsplit]
        exact getD_append_length l₁ e l₂ p
      have hswap : List.Perm (swapOut p rest l₁.length) (l₁ ++ l₂) := swapOut_split hsplit
      have hmem' : ∀ f ∈ swapOut p rest l₁.length, f ∈ p :: rest := by
        intro f hf
        have hf2 : f ∈ l₁ ++ l₂ := hswap.mem_iff.mp hf
        rw [hsplit]
        rcases List.mem_append.mp hf2 with h | h
        · exact List.mem_append_left _ h
        · exact List.mem_append_right _ (List.mem_cons_of_mem _ h)
      obtain ⟨res', hgo', hpm', hwf', hch'⟩ :=
        orientGo_path (w₁ :: t) (swapOut p rest l₁.length) w₁ s hndt rfl hs
          ((hswap.map entEdge).trans hrest) (fun f hf => hwf f (hmem' f hf))
      refine ⟨e :: res', ?_, ?_, ?_, ?_⟩
      · rw [orientGo_cons_tail w₀ p rest l₁.length hfi1, hget,
          show e.pair.2 = w₁ by rw [hpair], hgo']
        rfl
      · have h1 : List.Perm (res'.map Ent.orig) (l₁.map Ent.orig ++ l₂.map Ent.orig) := by
          have h2 := hpm'.trans (hswap.map Ent.orig)
          rwa [List.map_append] at h2
        rw [hsplit, List.map_append]
        simp only [List.map_cons]
        exact (List.Perm.cons e.orig h1).trans List.perm_middle.symm
      · intro f hf
        rcases List.mem_cons.mp hf with rfl | hf
        · exact hwfe
        · exact hwf' f hf
      · show ChainTo w₀ (e.pair :: res'.map Ent.pair) s
        refine ⟨by rw [hpair], ?_⟩
        rw [show e.pair.2 = w₁ by rw [hpair]]
        exact hch'
    · -- the chosen entry is stored as (w₁, w₀): found among the heads, pool flipped
      have hpair1 : e.pair = (w₁, w₀) := hpair
      have hfi1 : firstIdx (fun f => f.pair.1 = w₀) (p :: rest) = none := by
        rw [firstIdx_none_iff]
        intro f hf
        rw [hsplit] at hf
        rcases List.mem_append.mp hf with h | h
        · exact (hl₁ f h).1
        · rcases List.mem_cons.mp h with rfl | h
          · rw [hpair1]
            exact fun hc => hw01 hc.symm
          · exact (hl₂ f h).1
      have hfi2 : firstIdx (fun f => f.pair.2 = w₀) (p :: rest) = some l₁.length := by
        rw [hsplit]
        exact firstIdx_append _ l₁ e l₂ (fun f hf => (hl₁ f hf).2) (by rw [hpair1])
      have hsplitF : flipEnt p :: rest.map flipEnt =
          l₁.map flipEnt ++ flipEnt e :: l₂.map flipEnt := by
        have h1 : (p :: rest).map flipEnt = (l₁ ++ e :: l₂).map flipEnt := by rw [hsplit]
        simpa using h1
      have hgetF : (flipEnt p :: rest.map flipEnt).getD l₁.length (flipEnt p) = flipEnt e := by
        rw [hsplitF]
        have h1 := getD_append_length (l₁.map flipEnt) (flipEnt e) (l₂.map flipEnt) (flipEnt p)
        rwa [List.length_map] at h1
      have hswapF : List.Perm (swapOut (flipEnt p) (rest.map flipEnt) l₁.length)
          (l₁.map flipEnt ++ l₂.map flipEnt) := by
        have h1 := swapOut_split hsplitF
        rwa [List.length_map] at h1
      have hmapE : (l₁.map flipEnt ++ l₂.map flipEnt).map entEdge = (l₁ ++ l₂).map entEdge := by
        simp [List.map_map, Function.comp_def, entEdge_flip]
      have hEdgeF : List.Perm
          ((swapOut (flipEnt p) (rest.map flipEnt) l₁.length).map entEdge)
          (pathEdges (w₁ :: t)) := by
        refine (hswapF.map entEdge).trans ?_
        rw [hmapE]
        exact hrest
      have hmemF : ∀ f ∈ swapOut (flipEnt p) (rest.map flipEnt) l₁.length,
          ∃ g ∈ p :: rest, f = flipEnt g := by
        intro f hf
        have hf2 : f ∈ l₁.map flipEnt ++ l₂.map flipEnt := hswapF.mem_iff.mp hf
        rcases List.mem_append.mp hf2 with h | h
        · obtain ⟨g, hg, rfl⟩ := List.mem_map.mp h
          exact ⟨g, by rw [hsplit]; exact List.mem_append_left _ hg, rfl⟩
        · obtain ⟨g, hg, rfl⟩ := List.mem_map.mp h
          exact ⟨g, by rw [hsplit]; exact List.mem_append_right _ (List.mem_cons_of_mem _ hg),
            rfl⟩
      obtain ⟨res', hgo', hpm', hwf', hch'⟩ :=
        orientGo_path (w₁ :: t) (swapOut (flipEnt p) (rest.map flipEnt) l₁.length) w₁ s
          hndt rfl hs hEdgeF
          (by
            intro f hf
            obtain ⟨g, hg, rfl⟩ := hmemF f hf
            exact WFEnt_flip (hwf g hg))
      refine ⟨flipEnt e :: res', ?_, ?_, ?_, ?_⟩
      · rw [orientGo_cons_flip w₀ p rest l₁.length hfi1 hfi2, hgetF,
          show (flipEnt e).pair.2 = w₁ by simp [flipEnt, hpair1], hgo']
        rfl
      · have h1 : List.Perm (res'.map Ent.orig) (l₁.map Ent.orig ++ l₂.map Ent.orig) := by
          have h2 := hpm'.trans (hswapF.map Ent.orig)
          have h3 : (l₁.map flipEnt ++ l₂.map flipEnt).map Ent.orig =
              l₁.map Ent.orig ++ l₂.map Ent.orig := by
            simp [List.map_map, Function.comp_def, orig_flip]
          rwa [h3] at h2
        rw [hsplit, List.map_append]
        simp only [List.map_cons]
        rw [show (flipEnt e).orig = e.orig from rfl]
        exact (List.Perm.cons e.orig h1).trans List.perm_middle.symm
      · intro f hf
        rcases List.mem_cons.mp hf with rfl | hf
        · exact WFEnt_flip hwfe
        · exact hwf' f hf
      · show ChainTo w₀ ((flipEnt e).pair :: res'.map Ent.pair) s
        refine ⟨by simp [flipEnt, hpair1], ?_⟩
        rw [show (flipEnt e).pair.2 = w₁ by simp [flipEnt, hpair1]]
        exact hch'

/-! ## From one simple cycle to a rooted path -/

theorem concat_inj {α : Type} {l₁ l₂ : List α} {a b : α}
    (h : l₁ ++ [a] = l₂ ++ [b]) : l₁ = l₂ ∧ a = b := by
  have h1 := congrArg List.reverse h
  simp only [List.reverse_append, List.reverse_cons, List.reverse_nil, List.nil_append,
    List.singleton_append, List.cons.injEq] at h1
  exact ⟨List.reverse_injective h1.2, h1.1⟩

theorem cycleEdges_ne_nil {vs : List Nat} (h : vs ≠ []) : cycleEdges vs ≠ [] := by
  match vs, h with
  | [a], _ => simp [cycleEdges, pathEdges]
  | a :: b :: t, _ => simp [cycleEdges, pathEdges]

/-- Choose the direction of the path according to the stored orientation of the
starting segment. -/
theorem pick_direction {p : Nat × Nat} {rest : List (Nat × Nat)} {w₀ : List Nat} {x y : Nat}
    (hne : w₀ ≠ []) (hnd : w₀.Nodup) (hh : w₀.head? = some y) (hl : w₀.getLast? = some x)
    (hperm : List.Perm (rest.map undir) (pathEdges w₀))
    (hfu : undir p = undir (x, y)) :
    ∃ w : List Nat, w ≠ [] ∧ w.Nodup ∧ w.head? = some p.2 ∧ w.getLast? = some p.1 ∧
      List.Perm (rest.map undir) (pathEdges w) := by
  rcases undir_eq_iff.mp hfu with h | h
  · refine ⟨w₀, hne, hnd, ?_, ?_, hperm⟩
    · rw [h]
      exact hh
    · rw [h]
      exact hl
  · refine ⟨w₀.reverse, by simpa using hne, List.nodup_reverse.mpr hnd, ?_, ?_,
      hperm.trans (pathEdges_reverse_perm w₀).symm⟩
    · rw [h]
      show w₀.reverse.head? = some x
      rw [List.head?_reverse]
      exact hl
    · rw [h]
      show w₀.reverse.getLast? = some y
      rw [List.getLast?_reverse]
      exact hh

/-- Removing the starting segment from a single simple cycle leaves a simple
path from its stored head around to its stored tail. -/
theorem oneCycle_to_path {p : Nat × Nat} {rest : List (Nat × Nat)} {vs : List Nat}
    (hne : vs ≠ []) (hnd : vs.Nodup)
    (hperm : List.Perm ((p :: rest).map undir) (cycleEdges vs)) :
    ∃ w : List Nat, w ≠ [] ∧ w.Nodup ∧ w.head? = some p.2 ∧ w.getLast? = some p.1 ∧
      List.Perm (rest.map undir) (pathEdges w) := by
  obtain ⟨h₀, t, rfl⟩ : ∃ h₀ t, vs = h₀ :: t := by
    match vs, hne with
    | h₀ :: t, _ => exact ⟨h₀, t, rfl⟩
  have hu : undir p ∈ cycleEdges (h₀ :: t) := by
    refine hperm.mem_iff.mp ?_
    simp
  have hu' : undir p ∈ pathEdges ((h₀ :: t) ++ [h₀]) := hu
  obtain ⟨l₁, x, y, l₂, hsp, hfu⟩ := mem_pathEdges_split hu'
  rcases List.eq_nil_or_concat l₂ with rfl | ⟨l₂', z, rfl⟩
  · -- the segment is the closing edge of the cycle: y is the head, x the last
    have hsp' : (h₀ :: t) ++ [h₀] = (l₁ ++ [x]) ++ [y] := by
      rw [hsp]
      simp
    obtain ⟨hvs, hy⟩ := concat_inj hsp'
    have hhead : (h₀ :: t).head? = some y := by rw [List.head?_cons, hy]
    have hlast : (h₀ :: t).getLast? = some x := by
      rw [hvs]
      exact List.getLast?_concat _
    have hdec := cycleEdges_decomp hhead hlast
    have hrest : List.Perm (rest.map undir) (pathEdges (h₀ :: t)) := by
      have h1 := hperm.trans hdec
      rw [List.map_cons, ← hfu] at h1
      exact h1.cons_inv
    exact pick_direction (by simp) hnd hhead hlast hrest hfu
  · -- the segment is an inner edge of the stored vertex order: rotate the cycle
    have hsp' : (h₀ :: t) ++ [h₀] = (l₁ ++ x :: y :: l₂') ++ [z] := by
      rw [hsp]
      simp
    obtain ⟨hvs, hz⟩ := concat_inj hsp'
    have hrot : List.Perm (cycleEdges (h₀ :: t))
        (cycleEdges (((y :: l₂') ++ l₁) ++ [x])) := by
      have h1 : h₀ :: t = (l₁ ++ [x]) ++ (y :: l₂') := by
        rw [hvs]
        simp
      rw [h1]
      have h2 := cycleEdges_rotate (l₁ ++ [x]) (y :: l₂')
      have h3 : (y :: l₂') ++ (l₁ ++ [x]) = ((y :: l₂') ++ l₁) ++ [x] := by simp
      rw [h3] at h2
      exact h2
    have hwnd : (((y :: l₂') ++ l₁) ++ [x]).Nodup := by
      have hp1 : List.Perm (h₀ :: t) (((y :: l₂') ++ l₁) ++ [x]) := by
        rw [hvs]
        refine List.Perm.trans List.perm_append_comm ?_
        show List.Perm (x :: ((y :: l₂') ++ l₁)) _
        exact (List.perm_append_singleton _ _).symm
      exact hp1.nodup hnd
    have hwh : (((y :: l₂') ++ l₁) ++ [x]).head? = some y := rfl
    have hwl : (((y :: l₂') ++ l₁) ++ [x]).getLast? = some x := List.getLast?_concat _
    have hdec := cycleEdges_decomp hwh hwl
    have hrest : List.Perm (rest.map undir)
        (pathEdges (((y :: l₂') ++ l₁) ++ [x])) := by
      have h1 := (hperm.trans hrot).trans hdec
      rw [List.map_cons, ← hfu] at h1
      exact h1.cons_inv
    exact pick_direction (by simp) hwnd hwh hwl hrest hfu

/-! ## From a chained list to the cyclic chaining property -/

theorem chainTo_adj :
    ∀ {E : List (Nat × Nat)} {a b : Nat}, ChainTo a E b →
      ∀ i (h : i + 1 < E.length),
        (E.get ⟨i, Nat.lt_of_succ_lt h⟩).2 = (E.get ⟨i + 1, h⟩).1
  | [], a, b, _, i, h => by simp at h
  | q :: qs, a, b, hc, 0, h => by
    match qs, hc, h with
    | q' :: qs', hc, h => exact hc.2.1.symm
  | q :: qs, a, b, hc, i + 1, h => by
    have h2 := chainTo_adj hc.2 i (by simpa using h)
    exact h2

theorem chainTo_last :
    ∀ {E : List (Nat × Nat)} {a b : Nat}, ChainTo a E b →
      ∀ h : E ≠ [], (E.getLast h).2 = b
  | [], _, _, _, h => absurd rfl h
  | [q], a, b, hc, _ => hc.2
  | q :: q' :: qs, a, b, hc, _ => by
    have h2 := chainTo_last hc.2 (List.cons_ne_nil q' qs)
    rw [List.getLast_cons (List.cons_ne_nil q' qs)]
    exact h2

theorem chainTo_cyclic {E : List (Nat × Nat)} {c : Nat} (hc : ChainTo c E c) :
    CyclicChain E := by
  match E, hc with
  | [], _ => intro i hi; simp at hi
  | q :: qs, hc =>
    intro i hi
    by_cases h : i + 1 < (q :: qs).length
    · have h0 : (i + 1) % (q :: qs).length = i + 1 := Nat.mod_eq_of_lt h
      simp only [h0]
      exact chainTo_adj hc i h
    · have hlen : i + 1 = (q :: qs).length := by
        simp only [List.length_cons] at hi h ⊢
        omega
      have h0 : (i + 1) % (q :: qs).length = 0 := by
        rw [hlen, Nat.mod_self]
      simp only [h0]
      show ((q :: qs).get ⟨i, hi⟩).2 = q.1
      have hlast := chainTo_last hc (List.cons_ne_nil q qs)
      have hieq : i = qs.length := by
        simp only [List.length_cons] at hi h
        omega
      subst hieq
      have hgl : (q :: qs).get ⟨qs.length, hi⟩ =
          (q :: qs).getLast (List.cons_ne_nil q qs) := by
        rw [List.getLast_eq_get]
        congr 1
      rw [hgl, hlast, hc.1]

/-! ## Reconstruction lemmas -/

theorem WF_mkEnt (l : Seg) : WFEnt (mkEnt l) := rfl

theorem outLine_fst (e : Ent) : (outLine e).1 = e.orig.1 := by
  unfold outLine
  cases e.ori <;> simp

theorem outLine_mkEnt (l : Seg) : outLine (mkEnt l) = l := rfl

theorem effPair_outLine {e : Ent} (hwf : WFEnt e) (ho : e.orig.2 = true) :
    effPair (outLine e) = e.pair := by
  obtain ⟨pair, orig, ori⟩ := e
  unfold WFEnt at hwf
  simp only at hwf ho
  cases ori <;> simp_all [outLine, effPair]

/-- C1: for every input of N >= 1 segments whose endpoint ids form exactly one
simple cycle, `orient_lines` succeeds and returns a permutation of the input
segments, each possibly sign-flipped, whose effective pairs chain cyclically
(each effective head equals the next effective tail, wrapping around), and the
multiset of underlying undirected edges is unchanged. -/
theorem orient_lines_loop_closure (ps : List (Nat × Nat)) (h : OneCycle ps) :
    ∃ res, orientPairs ps = some res ∧
      List.Perm (res.map Prod.fst) ps ∧
      List.Perm (res.map (fun l => undir l.1)) (ps.map undir) ∧
      CyclicChain (res.map effPair) := by
  obtain ⟨vs, hne, hnd, hperm⟩ := h
  match ps, hperm with
  | [], hperm =>
    exact absurd hperm.symm.eq_nil (cycleEdges_ne_nil hne)
  | p :: rest, hperm =>
    obtain ⟨w, hwne, hwnd, hwh, hwl, hwp⟩ := oneCycle_to_path hne hnd hperm
    have hpe : ((rest.map (fun q => (q, true))).map mkEnt).map entEdge = rest.map undir := by
      simp [mkEnt, entEdge, List.map_map, Function.comp_def]
    have hwf0 : ∀ e ∈ (rest.map (fun q => (q, true))).map mkEnt, WFEnt e := by
      intro e he
      obtain ⟨l, _, rfl⟩ := List.mem_map.mp he
      exact WF_mkEnt l
    obtain ⟨res', hgo, hpm, hwf', hch⟩ :=
      orientGo_path w ((rest.map (fun q => (q, true))).map mkEnt) p.2 p.1 hwnd hwh hwl
        (by rw [hpe]; exact hwp) hwf0
    have hrun : orientPairs (p :: rest) = some ((mkEnt (p, true) :: res').map outLine) := by
      show orient_lines ((p :: rest).map (fun q => (q, true))) = _
      rw [List.map_cons]
      show (orientGo p.2 ((rest.map (fun q => (q, true))).map mkEnt)).map
        (fun r => (mkEnt (p, true) :: r).map outLine) = _
      rw [hgo]
      rfl
    have hpoolorig : ((rest.map (fun q => (q, true))).map mkEnt).map Ent.orig
        = rest.map (fun q => (q, true)) := by
      simp [mkEnt, List.map_map, Function.comp_def]
    have horigperm : List.Perm (res'.map Ent.orig) (rest.map (fun q => (q, true))) := by
      rw [← hpoolorig]
      exact hpm
    have ha : List.Perm (((mkEnt (p, true) :: res').map outLine).map Prod.fst) (p :: rest) := by
      have hfst : ((mkEnt (p, true) :: res').map outLine).map Prod.fst
          = p :: res'.map (fun e => e.orig.1) := by
        simp [List.map_map, Function.comp_def, outLine_fst, mkEnt]
      rw [hfst]
      refine List.Perm.cons p ?_
      have h2 := horigperm.map Prod.fst
      simpa [List.map_map, Function.comp_def] using h2
    refine ⟨(mkEnt (p, true) :: res').map outLine, hrun, ha, ?_, ?_⟩
    · have h3 := ha.map undir
      simpa [List.map_map, Function.comp_def] using h3
    · have horig2 : ∀ e ∈ res', e.orig.2 = true := by
        intro e he
        have h4 : e.orig ∈ res'.map Ent.orig := List.mem_map_of_mem _ he
        have h5 : e.orig ∈ rest.map (fun q => (q, true)) := horigperm.mem_iff.mp h4
        obtain ⟨q, _, hqe⟩ := List.mem_map.mp h5
        rw [← hqe]
      have heff : ((mkEnt (p, true) :: res').map outLine).map effPair
          = p :: res'.map Ent.pair := by
        simp only [List.map_cons, List.map_map]
        refine congrArg₂ _ rfl ?_
        refine List.map_congr_left ?_
        intro e he
        exact effPair_outLine (hwf' e he) (horig2 e he)
      rw [heff]
      refine chainTo_cyclic (c := p.1) ?_
      show p.1 = p.1 ∧ ChainTo p.2 (res'.map Ent.pair) p.1
      exact ⟨rfl, hch⟩

/-! ## Unconditional facts about successful runs -/

theorem getD_map {α β : Type} (f : α → β) :
    ∀ (l : List α) (r : Nat) (d : α), (l.map f).getD r (f d) = f (l.getD r d)
  | [], r, d => rfl
  | a :: l, 0, d => rfl
  | a :: l, r + 1, d => getD_map f l r d

theorem getD_mem {α : Type} :
    ∀ (l : List α) (r : Nat) (d : α), r < l.length → l.getD r d ∈ l
  | [], r, d, h => by simp at h
  | a :: l, 0, d, _ => List.mem_cons_self a l
  | a :: l, r + 1, d, h =>
    List.mem_cons_of_mem a (getD_mem l r d (by simpa using h))

theorem swapOut_mem (p : Ent) (rest : List Ent) (r : Nat) (f : Ent)
    (h : f ∈ swapOut p rest r) : f = p ∨ f ∈ rest := by
  match r, h with
  | 0, h => exact Or.inr h
  | r + 1, h =>
    rcases List.mem_or_eq_of_mem_set h with h | h
    · exact Or.inr h
    · exact Or.inl h

/-- Whenever the loop succeeds, each emitted entry is an input entry (possibly
flipped, preserving `orig` and well-formedness), and the emitted working pairs
chain adjacently starting from `out`. -/
theorem orientGo_some_chain :
    ∀ (pool : List Ent) (out : Nat) (res : List Ent), orientGo out pool = some res →
      (∀ e ∈ res, ∃ g ∈ pool, e.orig = g.orig ∧ (WFEnt g → WFEnt e)) ∧
      ∃ b, ChainTo out (res.map Ent.pair) b
  | [], out, res => by
    intro hgo
    simp only [orientGo, Option.some.injEq] at hgo
    subst hgo
    exact ⟨by simp, out, rfl⟩
  | p :: rest, out, res => by
    intro hgo
    rcases h1 : firstIdx (fun f => f.pair.1 = out) (p :: rest) with _ | r
    · rcases h2 : firstIdx (fun f => f.pair.2 = out) (p :: rest) with _ | r
      · rw [orientGo_cons_none out p rest h1 h2] at hgo
        exact absurd hgo (by simp)
      · rw [orientGo_cons_flip out p rest r h1 h2] at hgo
        obtain ⟨res0, hres0, rfl⟩ := Option.map_eq_some'.mp hgo
        obtain ⟨hr, hp2, _⟩ := firstIdx_some _ _ _ h2
        have hE : (flipEnt p :: rest.map flipEnt).getD r (flipEnt p)
            = flipEnt ((p :: rest).getD r p) := getD_map flipEnt (p :: rest) r p
        obtain ⟨hm, b, hc⟩ := orientGo_some_chain
          (swapOut (flipEnt p) (rest.map flipEnt) r) _ res0 hres0
        refine ⟨?_, b, ?_⟩
        · intro e he
          rcases List.mem_cons.mp he with rfl | he
          · refine ⟨(p :: rest).getD r p, getD_mem _ r p hr, ?_, ?_⟩
            · rw [hE]
              rfl
            · intro hwg
              rw [hE]
              exact WFEnt_flip hwg
          · obtain ⟨g, hg, hor, hwf⟩ := hm e he
            rcases swapOut_mem _ _ _ _ hg with rfl | hg
            · exact ⟨p, List.mem_cons_self _ _, hor, fun h => hwf (WFEnt_flip h)⟩
            · obtain ⟨g2, hg2, rfl⟩ := List.mem_map.mp hg
              exact ⟨g2, List.mem_cons_of_mem _ hg2, hor, fun h => hwf (WFEnt_flip h)⟩
        · show ChainTo out
            ((((flipEnt p :: rest.map flipEnt).getD r (flipEnt p)).pair) :: res0.map Ent.pair) b
          refine ⟨?_, hc⟩
          rw [hE]
          show ((p :: rest).getD r p).pair.2 = out
          exact hp2 p
    · rw [orientGo_cons_tail out p rest r h1] at hgo
      obtain ⟨res0, hres0, rfl⟩ := Option.map_eq_some'.mp hgo
      obtain ⟨hr, hp1, _⟩ := firstIdx_some _ _ _ h1
      obtain ⟨hm, b, hc⟩ := orientGo_some_chain (swapOut p rest r) _ res0 hres0
      refine ⟨?_, b, ?_⟩
      · intro e he
        rcases List.mem_cons.mp he with rfl | he
        · exact ⟨(p :: rest).getD r p, getD_mem _ r p hr, rfl, id⟩
        · obtain ⟨g, hg, hor, hwf⟩ := hm e he
          rcases swapOut_mem _ _ _ _ hg with rfl | hg
          · exact ⟨g, List.mem_cons_self _ _, hor, hwf⟩
          · exact ⟨g, List.mem_cons_of_mem _ hg, hor, hwf⟩
      · exact ⟨hp1 p, hc⟩
termination_by pool _ _ => pool.length
decreasing_by
  all_goals cases r <;> simp [swapOut, List.length_set]

/-- An already-chained pool passes through the loop unchanged: at each step the
predecessor's head matches the pool head's stored tail at relative index 0. -/
theorem orientGo_chain_id :
    ∀ (pool : List Ent) (out : Nat), PoolChain out pool → orientGo out pool = some pool
  | [], out, _ => by simp [orientGo]
  | e :: rest, out, hc => by
    have h0 : firstIdx (fun f => f.pair.1 = out) (e :: rest) = some 0 := by
      simp [firstIdx, hc.1]
    rw [orientGo_cons_tail out e rest 0 h0]
    show (orientGo e.pair.2 rest).map (fun res => e :: res) = _
    rw [orientGo_chain_id rest e.pair.2 hc.2]
    rfl

theorem adj_imp_pool :
    ∀ (l : Seg) (ls : List Seg),
      AdjChained ((l :: ls).map Prod.fst) → PoolChain l.1.2 (ls.map mkEnt)
  | _, [], _ => trivial
  | l, m :: ls, h => ⟨h.1.symm, adj_imp_pool m ls h.2⟩

/-! ## Agreement of `orientGo` with its fuel-indexed twin -/

theorem orientGo_eq_fuel :
    ∀ (n : Nat) (out : Nat) (pool : List Ent), pool.length ≤ n →
      orientGo out pool = orientGoFuel n out pool
  | n, out, [] => by
    intro _
    match n with
    | 0 => simp [orientGo, orientGoFuel]
    | _ + 1 => simp [orientGo, orientGoFuel]
  | 0, out, p :: rest => by
    intro h
    simp at h
  | n + 1, out, p :: rest => by
    intro h
    have hr : rest.length ≤ n := by simpa using h
    rcases h1 : firstIdx (fun f => f.pair.1 = out) (p :: rest) with _ | r
    · rcases h2 : firstIdx (fun f => f.pair.2 = out) (p :: rest) with _ | r
      · rw [orientGo_cons_none out p rest h1 h2]
        simp [orientGoFuel, h1, h2]
      · rw [orientGo_cons_flip out p rest r h1 h2]
        have hlen : (swapOut (flipEnt p) (rest.map flipEnt) r).length ≤ n := by
          cases r <;> simp [swapOut, List.length_set, List.length_map] <;> omega
        rw [orientGo_eq_fuel n _ _ hlen]
        simp [orientGoFuel, h1, h2]
    · rw [orientGo_cons_tail out p rest r h1]
      have hlen : (swapOut p rest r).length ≤ n := by
        cases r <;> simp [swapOut, List.length_set] <;> omega
      rw [orientGo_eq_fuel n _ _ hlen]
      simp [orientGoFuel, h1]

theorem orient_lines_eq_E : ∀ lines, orient_lines lines = orient_linesE lines
  | [] => rfl
  | l :: ls => by
    show (orientGo l.1.2 (ls.map mkEnt)).map (fun res => (mkEnt l :: res).map outLine) = _
    rw [orientGo_eq_fuel ls.length _ _ (by simp)]
    rfl

/-- Witness for C1: the triangle cycle 0-1-2. -/
theorem orient_lines_loop_closure_witness :
    OneCycle [(0, 1), (1, 2), (2, 0)] ∧
    ∃ res, orientPairs [(0, 1), (1, 2), (2, 0)] = some res ∧
      List.Perm (res.map Prod.fst) [(0, 1), (1, 2), (2, 0)] ∧
      List.Perm (res.map (fun l => undir l.1)) ([(0, 1), (1, 2), (2, 0)].map undir) ∧
      CyclicChain (res.map effPair) :=
  have h : OneCycle [(0, 1), (1, 2), (2, 0)] :=
    ⟨[0, 1, 2], by decide, by decide, by decide⟩
  ⟨h, orient_lines_loop_closure _ h⟩

/-- C2: at a chaining step where the unplaced pool offers neither a stored-tail
nor a stored-head match for the required id, `orient_lines` fails right there
(the source's out-of-range `wh[0]` access, modelled as `none`); and whenever it
does return, the returned segments' effective pairs chain adjacently, so no
silently unchained sequence is ever produced. -/
theorem orient_lines_break_fails :
    (∀ (out : Nat) (p : Ent) (rest : List Ent),
        (∀ e ∈ p :: rest, e.pair.1 ≠ out) → (∀ e ∈ p :: rest, e.pair.2 ≠ out) →
        orientGo out (p :: rest) = none) ∧
    (∀ (ps : List (Nat × Nat)) (res : List Seg), orientPairs ps = some res →
        ∃ a b, ChainTo a (res.map effPair) b) := by
  constructor
  · intro out p rest h1 h2
    exact orientGo_cons_none out p rest
      ((firstIdx_none_iff _ _).mpr h1) ((firstIdx_none_iff _ _).mpr h2)
  · intro ps res h
    match ps, h with
    | [], h =>
      have hres : res = [] := by
        simp only [orientPairs, orient_lines, List.map_nil, Option.some.injEq] at h
        exact h.symm
      subst hres
      exact ⟨0, 0, rfl⟩
    | p :: rest, h =>
      have h' : (orientGo p.2 ((rest.map (fun q => (q, true))).map mkEnt)).map
          (fun r => (mkEnt (p, true) :: r).map outLine) = some res := h
      obtain ⟨res0, hres0, hres⟩ := Option.map_eq_some'.mp h'
      obtain ⟨hm, b, hc⟩ := orientGo_some_chain _ _ _ hres0
      have hWFall : ∀ e ∈ res0, WFEnt e ∧ e.orig.2 = true := by
        intro e he
        obtain ⟨g, hg, hor, hwf⟩ := hm e he
        obtain ⟨l, hl, rfl⟩ := List.mem_map.mp hg
        obtain ⟨q, hq, hql⟩ := List.mem_map.mp hl
        refine ⟨hwf (WF_mkEnt _), ?_⟩
        rw [hor]
        show l.2 = true
        rw [← hql]
      have heff : res.map effPair = p :: res0.map Ent.pair := by
        rw [← hres]
        simp only [List.map_cons, List.map_map]
        refine congrArg₂ _ rfl ?_
        refine List.map_congr_left ?_
        intro e he
        exact effPair_outLine (hWFall e he).1 (hWFall e he).2
      refine ⟨p.1, b, ?_⟩
      rw [heff]
      exact ⟨rfl, hc⟩

/-- Witness for C2: a two-segment pool sharing no id with the required `out`,
and a successful run whose output chains. -/
theorem orient_lines_break_fails_witness :
    orientGo 7 [⟨(0, 1), ((0, 1), true), true⟩] = none ∧
    ∃ a b, ChainTo a (([((1, 2), true), ((2, 1), true)] : List Seg).map effPair) b :=
  ⟨orient_lines_break_fails.1 7 ⟨(0, 1), ((0, 1), true), true⟩ [] (by decide) (by decide),
    orient_lines_break_fails.2 [(1, 2), (2, 1)] [((1, 2), true), ((2, 1), true)]
      (by show orient_lines _ = _; rw [orient_lines_eq_E]; decide)⟩

/-- C6 counterexample: on the simple 4-cycle stored as
`[(0,1),(2,1),(2,3),(3,0)]` (one edge stored against the traversal), the first
application flips segment 1, and applying `orient_lines` to its own output
flips it back: the result is not byte-identical to the output. -/
theorem orient_lines_idempotence_cex :
    OneCycle [(0, 1), (2, 1), (2, 3), (3, 0)] ∧
    orientPairs [(0, 1), (2, 1), (2, 3), (3, 0)] =
      some [((0, 1), true), ((2, 1), false), ((2, 3), true), ((3, 0), true)] ∧
    orient_lines [((0, 1), true), ((2, 1), false), ((2, 3), true), ((3, 0), true)] ≠
      some [((0, 1), true), ((2, 1), false), ((2, 3), true), ((3, 0), true)] := by
  refine ⟨⟨[0, 1, 2, 3], by decide, by decide, by decide⟩, ?_, ?_⟩
  · show orient_lines _ = _
    rw [orient_lines_eq_E]
    decide
  · rw [orient_lines_eq_E]
    decide

/-- C6 (amended): `orient_lines` returns its input unchanged (same order, same
signs) whenever the input's stored pairs already chain adjacently — in
particular on any of its own outputs that carry no flipped segment.  Byte
idempotence fails in general: re-applying it to an output containing a flipped
segment can flip signs back (see the counterexample). -/
theorem orient_lines_id_on_chained (x : List Seg) (h : AdjChained (x.map Prod.fst)) :
    orient_lines x = some x := by
  match x with
  | [] => rfl
  | l :: ls =>
    show (orientGo l.1.2 (ls.map mkEnt)).map (fun res => (mkEnt l :: res).map outLine) = _
    rw [orientGo_chain_id (ls.map mkEnt) l.1.2 (adj_imp_pool l ls h)]
    show some ((mkEnt l :: ls.map mkEnt).map outLine) = _
    congr 1
    show outLine (mkEnt l) :: (ls.map mkEnt).map outLine = l :: ls
    rw [outLine_mkEnt]
    congr 1
    rw [List.map_map]
    have hcongr : ∀ a ∈ ls, (outLine ∘ mkEnt) a = id a := fun a _ => outLine_mkEnt a
    rw [List.map_congr_left hcongr, List.map_id]

/-- Witness for the amended C6: a chained input with mixed signs is returned
unchanged. -/
theorem orient_lines_id_on_chained_witness :
    AdjChained (([((0, 1), true), ((1, 2), false), ((2, 7), true)] : List Seg).map Prod.fst) ∧
    orient_lines [((0, 1), true), ((1, 2), false), ((2, 7), true)] =
      some [((0, 1), true), ((1, 2), false), ((2, 7), true)] :=
  ⟨by decide, orient_lines_id_on_chained _ (by decide)⟩

/-- C8: the run is deterministic with a fixed starting convention — the first
output segment is the first input segment with its stored orientation and sign
`+1`, and the candidate search used at every chaining step (`firstIdx`, the
`wh[0]` of the source) scans the unplaced pool in ascending index order and
returns the lowest matching index. -/
theorem orient_lines_first_and_lowest :
    (∀ (ps : List (Nat × Nat)) (res : List Seg), orientPairs ps = some res →
        res.head? = ps.head?.map (fun p => (p, true))) ∧
    (∀ (p : Ent → Prop) [DecidablePred p] (l : List Ent) (r : Nat),
        firstIdx p l = some r →
        r < l.length ∧ (∀ d, p (l.getD r d)) ∧ (∀ i d, i < r → ¬ p (l.getD i d))) := by
  constructor
  · intro ps res h
    match ps, h with
    | [], h =>
      have hres : res = [] := by
        simp only [orientPairs, orient_lines, List.map_nil, Option.some.injEq] at h
        exact h.symm
      subst hres
      rfl
    | p :: rest, h =>
      have h' : (orientGo p.2 ((rest.map (fun q => (q, true))).map mkEnt)).map
          (fun r => (mkEnt (p, true) :: r).map outLine) = some res := h
      obtain ⟨res0, _, hres⟩ := Option.map_eq_some'.mp h'
      rw [← hres]
      rfl
  · intro p inst l r h
    exact firstIdx_some p l r h

/-- Witness for C8: concrete head convention and a lowest-index search hit. -/
theorem orient_lines_first_and_lowest_witness :
    (([((1, 2), true), ((2, 1), true)] : List Seg).head? =
      ([(1, 2), (2, 1)] : List (Nat × Nat)).head?.map (fun p => (p, true))) ∧
    (1 < ([⟨(9, 9), ((9, 9), true), true⟩, ⟨(3, 4), ((3, 4), true), true⟩] : List Ent).length ∧
      (∀ d, (fun e => e.pair.1 = 3)
        (([⟨(9, 9), ((9, 9), true), true⟩, ⟨(3, 4), ((3, 4), true), true⟩] : List Ent).getD 1 d)) ∧
      (∀ i d, i < 1 → ¬ (fun e => e.pair.1 = 3)
        (([⟨(9, 9), ((9, 9), true), true⟩, ⟨(3, 4), ((3, 4), true), true⟩] : List Ent).getD i d))) :=
  ⟨orient_lines_first_and_lowest.1 [(1, 2), (2, 1)] [((1, 2), true), ((2, 1), true)]
      (by show orient_lines _ = _; rw [orient_lines_eq_E]; decide),
    orient_lines_first_and_lowest.2 (fun e => e.pair.1 = 3)
      [⟨(9, 9), ((9, 9), true), true⟩, ⟨(3, 4), ((3, 4), true), true⟩] 1 (by decide)⟩

/-! ## The loop never writes the input list -/

theorem loopBody_lines (s : LoopState) (j : Nat) (s' : LoopState)
    (h : loopBody s j = some s') : s'.lines = s.lines := by
  rcases hA : firstIdxFrom (fun q => q.1 = (s.pp.getD (j - 1) (0, 0)).2) s.pp j with _ | k
  · rcases hB : firstIdxFrom (fun q => q.2 = (s.pp.getD (j - 1) (0, 0)).2) s.pp j with _ | k
    · simp only [loopBody, hA, hB] at h
      exact Option.noConfusion h
    · simp only [loopBody, hA, hB, Option.some.injEq] at h
      rw [← h]
  · simp only [loopBody, hA, Option.some.injEq] at h
    rw [← h]

theorem foldl_loopBody_lines :
    ∀ (js : List Nat) (s s' : LoopState), js.foldlM loopBody s = some s' →
      s'.lines = s.lines
  | [], s, s' => by
    intro h
    simp only [List.foldlM_nil] at h
    injection h with h
    rw [← h]
  | j :: js, s, s' => by
    intro h
    simp only [List.foldlM_cons] at h
    obtain ⟨s1, hs1, hrest⟩ := Option.bind_eq_some.mp h
    rw [foldl_loopBody_lines js s1 s' hrest, loopBody_lines s j s1 hs1]

/-- C10: `orient_lines` never mutates its input: each loop iteration assigns
only to `point_pair_ids`, `order` and `oriented`, so across every step (and
every partial run, aborted or not) the `lines` variable — the caller's input
list, its order and each segment's stored endpoint pair — is unchanged, and
the output is built as a fresh list. -/
theorem orient_lines_no_input_mutation :
    (∀ (s : LoopState) (j : Nat) (s' : LoopState), loopBody s j = some s' →
        s'.lines = s.lines) ∧
    (∀ (s s' : LoopState), runLoop s = some s' → s'.lines = s.lines) ∧
    (∀ (lines : List Seg) (s' : LoopState), runLoop (initState lines) = some s' →
        s'.lines = lines) := by
  refine ⟨loopBody_lines, ?_, ?_⟩
  · intro s s' h
    exact foldl_loopBody_lines _ s s' h
  · intro lines s' h
    exact foldl_loopBody_lines _ _ s' h

/-- Witness for C10 on a two-segment input. -/
theorem orient_lines_no_input_mutation_witness :
    (LoopState.mk [((0, 1), true), ((1, 2), true)] [(0, 1), (1, 2)] [0, 1]
        [true, true]).lines = [((0, 1), true), ((1, 2), true)] ∧
    (LoopState.mk [((5, 6), true)] [(0, 1), (1, 2)] [0, 1] [true, true]).lines
      = [((5, 6), true)] :=
  ⟨orient_lines_no_input_mutation.2.2 [((0, 1), true), ((1, 2), true)]
      (LoopState.mk [((0, 1), true), ((1, 2), true)] [(0, 1), (1, 2)] [0, 1] [true, true])
      (by decide),
    orient_lines_no_input_mutation.1
      (LoopState.mk [((5, 6), true)] [(0, 1), (1, 2)] [0, 1] [true, true]) 1
      (LoopState.mk [((5, 6), true)] [(0, 1), (1, 2)] [0, 1] [true, true]) (by decide)⟩

/-! ## Cell-type filtering (C3) -/

theorem any_mem_iff (cs : List CellBlock) (ts : List String) :
    cs.any (fun c => decide (c.type ∈ ts)) = true ↔ ∃ c ∈ cs, c.type ∈ ts := by
  simp [List.any_eq_true]

theorem keepTypes_3d {cs : List CellBlock} (h : ∃ c ∈ cs, c.type ∈ cells_3d) :
    keepTypes cs = cells_3d := by
  unfold keepTypes
  rw [if_pos ((any_mem_iff cs cells_3d).mpr h)]

theorem keepTypes_2d {cs : List CellBlock} (h3 : ¬ ∃ c ∈ cs, c.type ∈ cells_3d)
    (h2 : ∃ c ∈ cs, c.type ∈ cells_2d) : keepTypes cs = cells_2d := by
  unfold keepTypes
  have hn : ¬ (cs.any (fun c => decide (c.type ∈ cells_3d)) = true) :=
    fun hx => h3 ((any_mem_iff _ _).mp hx)
  rw [if_neg hn, if_pos ((any_mem_iff cs cells_2d).mpr h2)]

theorem keepTypes_all {cs : List CellBlock} (h3 : ¬ ∃ c ∈ cs, c.type ∈ cells_3d)
    (h2 : ¬ ∃ c ∈ cs, c.type ∈ cells_2d) : keepTypes cs = cs.map (fun c => c.type) := by
  unfold keepTypes
  have hn3 : ¬ (cs.any (fun c => decide (c.type ∈ cells_3d)) = true) :=
    fun hx => h3 ((any_mem_iff _ _).mp hx)
  have hn2 : ¬ (cs.any (fun c => decide (c.type ∈ cells_2d)) = true) :=
    fun hx => h2 ((any_mem_iff _ _).mp hx)
  rw [if_neg hn3, if_neg hn2]

theorem lockstep_zip {α : Type} (keep : List String) :
    ∀ (val : List α) (cs : List CellBlock),
      ((val.zip cs).filterMap (fun dc => if dc.2.type ∈ keep then some dc.1 else none)).zip
          (cs.filter (fun c => decide (c.type ∈ keep)))
        = (val.zip cs).filter (fun dc => decide (dc.2.type ∈ keep))
  | [], cs => by simp
  | a :: val, [] => by simp
  | a :: val, c :: cs => by
    by_cases h : c.type ∈ keep <;>
      simp [List.zip_cons_cons, h, lockstep_zip keep val cs]

theorem lockstep_len {α : Type} (keep : List String) :
    ∀ (val : List α) (cs : List CellBlock), val.length = cs.length →
      ((val.zip cs).filterMap
          (fun dc => if dc.2.type ∈ keep then some dc.1 else none)).length
        = (cs.filter (fun c => decide (c.type ∈ keep))).length
  | [], [] => by simp
  | [], c :: cs => by intro h; simp at h
  | a :: val, [] => by intro h; simp at h
  | a :: val, c :: cs => by
    intro h
    by_cases hc : c.type ∈ keep <;>
      simp [hc, lockstep_len keep val cs (by simpa using h)]

/-- C3: with `remove_lower_dim_cells` on, tier-3 block types win, else tier-2,
else everything is retained; and for every named cell-data field the data
arrays are dropped in lockstep: the surviving arrays pair up positionally with
exactly the original (array, block) pairs whose block survives. -/
theorem filter_cells_tiers (m : Mesh) :
    ((∃ c ∈ m.cells, c.type ∈ cells_3d) →
        (filterCells m).cells = m.cells.filter (fun c => decide (c.type ∈ cells_3d))) ∧
    ((¬ ∃ c ∈ m.cells, c.type ∈ cells_3d) → (∃ c ∈ m.cells, c.type ∈ cells_2d) →
        (filterCells m).cells = m.cells.filter (fun c => decide (c.type ∈ cells_2d))) ∧
    ((¬ ∃ c ∈ m.cells, c.type ∈ cells_3d) → (¬ ∃ c ∈ m.cells, c.type ∈ cells_2d) →
        (filterCells m).cells = m.cells) ∧
    (∀ nv ∈ m.cell_data, ∃ val',
        (nv.1, val') ∈ (filterCells m).cell_data ∧
        (nv.2.length = m.cells.length → val'.length = (filterCells m).cells.length) ∧
        val'.zip (filterCells m).cells =
          (nv.2.zip m.cells).filter (fun dc => decide (dc.2.type ∈ keepTypes m.cells))) := by
  refine ⟨?_, ?_, ?_, ?_⟩
  · intro h
    show m.cells.filter _ = _
    rw [keepTypes_3d h]
  · intro h3 h2
    show m.cells.filter _ = _
    rw [keepTypes_2d h3 h2]
  · intro h3 h2
    show m.cells.filter _ = _
    rw [keepTypes_all h3 h2]
    refine List.filter_eq_self.mpr ?_
    intro c hc
    exact decide_eq_true (List.mem_map_of_mem _ hc)
  · intro nv hnv
    refine ⟨(nv.2.zip m.cells).filterMap
      (fun dc => if dc.2.type ∈ keepTypes m.cells then some dc.1 else none), ?_, ?_, ?_⟩
    · exact List.mem_map_of_mem
        (fun nv => (nv.1, (nv.2.zip m.cells).filterMap
          (fun dc => if dc.2.type ∈ keepTypes m.cells then some dc.1 else none))) hnv
    · intro hlen
      exact lockstep_len (keepTypes m.cells) nv.2 m.cells hlen
    · exact lockstep_zip (keepTypes m.cells) nv.2 m.cells

/-- Witness for C3: a mesh holding one triangle and one tetra block with one
named cell-data field. -/
theorem filter_cells_tiers_witness :
    (∃ c ∈ (Mesh.mk [] [CellBlock.mk "triangle" [[0, 1, 2]], CellBlock.mk "tetra" [[0, 1, 2, 3]]]
        [] [("f", [[5], [6]])]).cells, c.type ∈ cells_3d) ∧
    (filterCells (Mesh.mk [] [CellBlock.mk "triangle" [[0, 1, 2]], CellBlock.mk "tetra" [[0, 1, 2, 3]]]
        [] [("f", [[5], [6]])])).cells =
      (Mesh.mk [] [CellBlock.mk "triangle" [[0, 1, 2]], CellBlock.mk "tetra" [[0, 1, 2, 3]]]
        [] [("f", [[5], [6]])]).cells.filter (fun c => decide (c.type ∈ cells_3d)) :=
  have h : ∃ c ∈ (Mesh.mk [] [CellBlock.mk "triangle" [[0, 1, 2]], CellBlock.mk "tetra" [[0, 1, 2, 3]]]
      [] [("f", [[5], [6]])]).cells, c.type ∈ cells_3d := ⟨CellBlock.mk "tetra" [[0, 1, 2, 3]], by decide, by decide⟩
  ⟨h, (filter_cells_tiers _).1 h⟩

/-! ## The z-axis reduction (C5) -/

/-- C5: with `prune_z_0` on, the third coordinate is dropped exactly when every
point has 3 components and every third component is `< 1e-13` in absolute
value; otherwise (wrong arity, or some `|z| ≥ 1e-13`, e.g. `|z| = 1e-12`) the
points are left unchanged. -/
theorem prune_z_boundary (pts : List (List ℚ)) :
    ((¬ ∀ p ∈ pts, p.length = 3) → pruneZ0 pts = pts) ∧
    ((∀ p ∈ pts, p.length = 3) → (∀ p ∈ pts, |p.getD 2 0| < 1 / 10 ^ 13) →
        pruneZ0 pts = pts.map (fun p => p.take 2) ∧ ∀ p ∈ pruneZ0 pts, p.length = 2) ∧
    ((∀ p ∈ pts, p.length = 3) → (∃ p ∈ pts, 1 / 10 ^ 13 ≤ |p.getD 2 0|) →
        pruneZ0 pts = pts) := by
  refine ⟨?_, ?_, ?_⟩
  · intro h
    unfold pruneZ0
    rw [if_neg]
    intro hc
    exact h hc.1
  · intro h1 h2
    have hc : (∀ p ∈ pts, p.length = 3) ∧ (∀ p ∈ pts, |p.getD 2 0| < 1 / 10 ^ 13) := ⟨h1, h2⟩
    constructor
    · unfold pruneZ0
      rw [if_pos hc]
    · intro p hp
      unfold pruneZ0 at hp
      rw [if_pos hc] at hp
      obtain ⟨q, hq, rfl⟩ := List.mem_map.mp hp
      rw [List.length_take, h1 q hq]
      omega
  · intro h1 h2
    unfold pruneZ0
    rw [if_neg]
    rintro ⟨_, hall⟩
    obtain ⟨p, hp, hge⟩ := h2
    exact absurd (hall p hp) (not_lt.mpr hge)

/-- Witness for C5: a flat 3-component cloud is reduced, while a single point
with `|z| = 1e-12` keeps all three components. -/
theorem prune_z_boundary_witness :
    (pruneZ0 [[0, 0, 0], [1, 2, 1 / 10 ^ 14]] =
        ([[0, 0, 0], [1, 2, 1 / 10 ^ 14]] : List (List ℚ)).map (fun p => p.take 2) ∧
      ∀ p ∈ pruneZ0 [[0, 0, 0], [1, 2, 1 / 10 ^ 14]], p.length = 2) ∧
    pruneZ0 [[1, 2, 1 / 10 ^ 12]] = [[1, 2, 1 / 10 ^ 12]] :=
  ⟨(prune_z_boundary _).2.1 (by decide)
      (by
        intro p hp
        simp only [List.mem_cons, List.not_mem_nil, or_false] at hp
        rcases hp with rfl | rfl
        · show |(0 : ℚ)| < 1 / 10 ^ 13
          rw [abs_zero]
          norm_num
        · show |(1 / 10 ^ 14 : ℚ)| < 1 / 10 ^ 13
          rw [abs_of_nonneg (by norm_num : (0 : ℚ) ≤ 1 / 10 ^ 14)]
          norm_num),
    (prune_z_boundary _).2.2 (by decide)
      ⟨[1, 2, (1 : ℚ) / 10 ^ 12], List.mem_cons_self _ _,
        by
          show (1 / 10 ^ 13 : ℚ) ≤ |(1 / 10 ^ 12 : ℚ)|
          rw [abs_of_nonneg (by norm_num : (0 : ℚ) ≤ 1 / 10 ^ 12)]
          norm_num⟩⟩

/-! ## No typed empty-result error (C9) -/

/-- C9 counterexample: a mesh with zero cell blocks, run with the cell filter
on and vertex pruning off, is returned unchanged — no error of any kind is
signalled, contradicting the claim that an `EmptyResultError` is raised
whenever zero cell blocks survive. -/
theorem empty_result_not_signalled :
    postprocess (Mesh.mk [[0, 0, 0]] [] [] []) true false false =
      some (Mesh.mk [[0, 0, 0]] [] [] []) ∧
    (Mesh.mk [[0, 0, 0]] [] [] []).cells = [] :=
  ⟨by decide, rfl⟩

/-- C9 (amended): the pipeline defines no typed empty-result error.  With
vertex pruning enabled, a mesh with zero cell blocks makes the pruner's first
`numpy.concatenate` fail (an untyped error, modelled `none`); with pruning
disabled such a mesh is returned silently (see the counterexample). -/
theorem prune_empty_cells_fails (m : Mesh) (h : m.cells = []) (r z : Bool) :
    postprocess m r true z = none := by
  have h1 : (if r then filterCells m else m).cells = [] := by
    cases r
    · simpa using h
    · show (filterCells m).cells = []
      show m.cells.filter _ = []
      rw [h]
      rfl
  have h2 : pruneVertices (if r then filterCells m else m) = none := by
    unfold pruneVertices
    rw [h1]
    rfl
  simp only [postprocess, if_true]
  rw [h2]
  rfl

/-- Witness for the amended C9. -/
theorem prune_empty_cells_fails_witness :
    postprocess (Mesh.mk [[0, 0, 0]] [] [] []) true true false = none :=
  prune_empty_cells_fails (Mesh.mk [[0, 0, 0]] [] [] []) rfl true false

/-! ## Sorted deduplication (`numpy.unique`) -/

theorem mem_insertSorted (a x : Nat) :
    ∀ l : List Nat, x ∈ insertSorted a l ↔ x = a ∨ x ∈ l
  | [] => by simp [insertSorted]
  | y :: ys => by
    unfold insertSorted
    by_cases h1 : a < y
    · simp [h1]
    · by_cases h2 : a = y
      · subst h2
        simp [h1]
      · simp only [if_neg h1, if_neg h2, List.mem_cons, mem_insertSorted a x ys]
        tauto

theorem sorted_insertSorted (a : Nat) :
    ∀ l : List Nat, List.Sorted (· < ·) l → List.Sorted (· < ·) (insertSorted a l)
  | [] => by simp [insertSorted]
  | y :: ys => by
    intro hs
    rw [List.sorted_cons] at hs
    unfold insertSorted
    by_cases h1 : a < y
    · rw [if_pos h1, List.sorted_cons]
      refine ⟨?_, List.sorted_cons.mpr hs⟩
      intro b hb
      rcases List.mem_cons.mp hb with rfl | hb
      · exact h1
      · exact lt_trans h1 (hs.1 b hb)
    · by_cases h2 : a = y
      · rw [if_neg h1, if_pos h2, List.sorted_cons]
        exact hs
      · rw [if_neg h1, if_neg h2, List.sorted_cons]
        refine ⟨?_, sorted_insertSorted a ys hs.2⟩
        intro b hb
        rcases (mem_insertSorted a b ys).mp hb with rfl | hb
        · omega
        · exact hs.1 b hb

theorem sorted_dedupSort : ∀ l : List Nat, List.Sorted (· < ·) (dedupSort l)
  | [] => by simp [dedupSort]
  | a :: l => sorted_insertSorted a (dedupSort l) (sorted_dedupSort l)

theorem mem_dedupSort (x : Nat) : ∀ l : List Nat, x ∈ dedupSort l ↔ x ∈ l
  | [] => by simp [dedupSort]
  | a :: l => by
    show x ∈ insertSorted a (dedupSort l) ↔ _
    rw [mem_insertSorted, mem_dedupSort x l, List.mem_cons]

/-- Two strictly-sorted lists with the same members are equal. -/
theorem sorted_lt_ext :
    ∀ {l₁ l₂ : List Nat}, List.Sorted (· < ·) l₁ → List.Sorted (· < ·) l₂ →
      (∀ x, x ∈ l₁ ↔ x ∈ l₂) → l₁ = l₂
  | [], l₂, _, _, hm => by
    have : ∀ x, x ∉ l₂ := fun x hx => by simp [← hm x] at hx
    exact (List.eq_nil_iff_forall_not_mem.mpr this).symm
  | a :: l₁, [], _, _, hm => by
    exact absurd ((hm a).mp (List.mem_cons_self a l₁)) (List.not_mem_nil a)
  | a :: l₁, b :: l₂, h1, h2, hm => by
    rw [List.sorted_cons] at h1 h2
    have hab : a = b := by
      by_contra hne
      have ha2 : a ∈ b :: l₂ := (hm a).mp (List.mem_cons_self a l₁)
      have hb1 : b ∈ a :: l₁ := (hm b).mpr (List.mem_cons_self b l₂)
      rcases List.mem_cons.mp ha2 with h | h
      · exact hne h
      · rcases List.mem_cons.mp hb1 with h' | h'
        · exact hne h'.symm
        · have := h2.1 a h
          have := h1.1 b h'
          omega
    subst hab
    have htail : ∀ x, x ∈ l₁ ↔ x ∈ l₂ := by
      intro x
      constructor
      · intro hx
        have hxa : a < x := h1.1 x hx
        rcases List.mem_cons.mp ((hm x).mp (List.mem_cons_of_mem a hx)) with rfl | h
        · omega
        · exact h
      · intro hx
        have hxa : a < x := h2.1 x hx
        rcases List.mem_cons.mp ((hm x).mpr (List.mem_cons_of_mem a hx)) with rfl | h
        · omega
        · exact h
    rw [sorted_lt_ext h1.2 h2.2 htail]

theorem getD_range_map {α : Type} (d : α) :
    ∀ l : List α, (List.range l.length).map (fun i => l.getD i d) = l
  | [] => rfl
  | a :: l => by
    rw [List.length_cons, List.range_succ_eq_map, List.map_cons, List.map_map]
    show a :: (List.range l.length).map (fun i => (a :: l).getD (i + 1) d) = a :: l
    have h1 : ∀ i ∈ List.range l.length, (a :: l).getD (i + 1) d = l.getD i d :=
      fun i _ => rfl
    rw [List.map_congr_left h1, getD_range_map d l]

theorem indexOf_range {w n : Nat} (h : w < n) : (List.range n).indexOf w = w := by
  have h1 := List.get_indexOf (List.nodup_range n) ⟨w, by simpa using h⟩
  simpa using h1

/-! ## Success and inversion of the pruning pipeline's steps -/

theorem npConcat1_some_of_ne {α : Type} {ls : List (List α)} (h : ls ≠ []) :
    npConcat1 ls = some ls.flatten := by
  match ls, h with
  | a :: ls, _ => rfl

theorem npConcat1_inv {α : Type} {ls : List (List α)} {out : List α}
    (h : npConcat1 ls = some out) : ls ≠ [] ∧ out = ls.flatten := by
  match ls, h with
  | a :: ls, h =>
    refine ⟨by simp, ?_⟩
    injection h with h
    exact h.symm

theorem mapM_blocks_some :
    ∀ (cs : List CellBlock), (∀ c ∈ cs, c.cells ≠ []) →
      cs.mapM (fun c => npConcat1 c.cells) = some (cs.map (fun c => c.cells.flatten))
  | [] => by intro _; rfl
  | c :: cs => by
    intro h
    rw [List.mapM_cons, npConcat1_some_of_ne (h c (List.mem_cons_self c cs)),
      mapM_blocks_some cs (fun c' hc' => h c' (List.mem_cons_of_mem c hc'))]
    rfl

theorem mapM_blocks_inv :
    ∀ (cs : List CellBlock) (bf : List (List Nat)),
      cs.mapM (fun c => npConcat1 c.cells) = some bf →
      (∀ c ∈ cs, c.cells ≠ []) ∧ bf = cs.map (fun c => c.cells.flatten)
  | [], bf => by
    intro h
    simp only [List.mapM_nil, pure, Option.some.injEq] at h
    exact ⟨by simp, h.symm⟩
  | c :: cs, bf => by
    intro h
    rw [List.mapM_cons] at h
    obtain ⟨b, hb, h⟩ := Option.bind_eq_some.mp h
    obtain ⟨bs, hbs, h⟩ := Option.bind_eq_some.mp h
    obtain ⟨hne, rfl⟩ := npConcat1_inv hb
    obtain ⟨hall, rfl⟩ := mapM_blocks_inv cs bs hbs
    simp only [pure, Option.some.injEq] at h
    refine ⟨?_, by rw [← h]; rfl⟩
    intro c' hc'
    rcases List.mem_cons.mp hc' with rfl | hc'
    · exact hne
    · exact hall c' hc'

theorem get?_eq_getD {α : Type} :
    ∀ (l : List α) (i : Nat) (d : α), i < l.length → l.get? i = some (l.getD i d)
  | [], i, d, h => by simp at h
  | a :: l, 0, d, _ => rfl
  | a :: l, i + 1, d, h => get?_eq_getD l i d (by simpa using h)

theorem subsetIdx_some {α : Type} (rows : List α) (d : α) :
    ∀ (idxs : List Nat), (∀ i ∈ idxs, i < rows.length) →
      subsetIdx rows idxs = some (idxs.map (fun i => rows.getD i d))
  | [] => by intro _; rfl
  | i :: idxs => by
    intro h
    unfold subsetIdx
    rw [List.mapM_cons]
    rw [get?_eq_getD rows i d (h i (List.mem_cons_self i idxs))]
    rw [show List.mapM (fun i => rows.get? i) idxs
        = some (idxs.map (fun i => rows.getD i d)) from
      subsetIdx_some rows d idxs (fun i' hi' => h i' (List.mem_cons_of_mem i hi'))]
    rfl

theorem subsetIdx_inv {α : Type} (rows : List α) (d : α) :
    ∀ (idxs : List Nat) (out : List α), subsetIdx rows idxs = some out →
      (∀ i ∈ idxs, i < rows.length) ∧ out = idxs.map (fun i => rows.getD i d)
  | [], out => by
    intro h
    simp only [subsetIdx, List.mapM_nil, pure, Option.some.injEq] at h
    exact ⟨by simp, h.symm⟩
  | i :: idxs, out => by
    intro h
    unfold subsetIdx at h
    rw [List.mapM_cons] at h
    obtain ⟨b, hb, h⟩ := Option.bind_eq_some.mp h
    obtain ⟨bs, hbs, h⟩ := Option.bind_eq_some.mp h
    simp only [pure, Option.some.injEq] at h
    have hi : i < rows.length := by
      rcases List.get?_eq_some.mp hb with ⟨hlt, _⟩
      exact hlt
    have hbv : b = rows.getD i d := by
      rw [get?_eq_getD rows i d hi] at hb
      injection hb with hb
      exact hb.symm
    obtain ⟨hrec, rfl⟩ := subsetIdx_inv rows d idxs bs hbs
    refine ⟨?_, ?_⟩
    · intro i' hi'
      rcases List.mem_cons.mp hi' with rfl | hi'
      · exact hi
      · exact hrec i' hi'
    · rw [← h, List.map_cons, hbv]

theorem pd_mapM_some (R : List Nat) :
    ∀ (pd : List (String × List ℚ)), (∀ kv ∈ pd, ∀ i ∈ R, i < kv.2.length) →
      pd.mapM (fun kv => (subsetIdx kv.2 R).map (fun a => (kv.1, a)))
        = some (pd.map (fun kv => (kv.1, R.map (fun i => kv.2.getD i 0))))
  | [] => by intro _; rfl
  | kv :: pd => by
    intro h
    rw [List.mapM_cons]
    rw [subsetIdx_some kv.2 (0 : ℚ) R (h kv (List.mem_cons_self kv pd))]
    rw [show List.mapM (fun kv => (subsetIdx kv.2 R).map (fun a => (kv.1, a))) pd
        = some (pd.map (fun kv => (kv.1, R.map (fun i => kv.2.getD i 0)))) from
      pd_mapM_some R pd (fun kv' hkv' => h kv' (List.mem_cons_of_mem kv hkv'))]
    rfl

theorem pd_mapM_inv (R : List Nat) :
    ∀ (pd : List (String × List ℚ)) (out : List (String × List ℚ)),
      pd.mapM (fun kv => (subsetIdx kv.2 R).map (fun a => (kv.1, a))) = some out →
      (∀ kv ∈ pd, ∀ i ∈ R, i < kv.2.length) ∧
        out = pd.map (fun kv => (kv.1, R.map (fun i => kv.2.getD i 0)))
  | [], out => by
    intro h
    simp only [List.mapM_nil, pure, Option.some.injEq] at h
    exact ⟨by simp, h.symm⟩
  | kv :: pd, out => by
    intro h
    rw [List.mapM_cons] at h
    obtain ⟨b, hb, h⟩ := Option.bind_eq_some.mp h
    obtain ⟨bs, hbs, h⟩ := Option.bind_eq_some.mp h
    simp only [pure, Option.some.injEq] at h
    obtain ⟨a, ha, rfl⟩ := Option.map_eq_some'.mp hb
    obtain ⟨hbound, rfl⟩ := subsetIdx_inv kv.2 (0 : ℚ) R a ha
    obtain ⟨hrec, rfl⟩ := pd_mapM_inv R pd bs hbs
    refine ⟨?_, by rw [← h]; rfl⟩
    intro kv' hkv'
    rcases List.mem_cons.mp hkv' with rfl | hkv'
    · exact hbound
    · exact hrec kv' hkv'

theorem flatten_remap (cs : List CellBlock) (f : Nat → Nat) :
    ((cs.map (fun c => CellBlock.mk c.type (c.cells.map (List.map f)))).map
        (fun c => c.cells.flatten)).flatten
      = ((cs.map (fun c => c.cells.flatten)).flatten).map f := by
  rw [List.map_map, List.map_flatten, List.map_map]
  congr 1
  refine List.map_congr_left ?_
  intro c _
  show (c.cells.map (List.map f)).flatten = List.map f c.cells.flatten
  exact (List.map_flatten f c.cells).symm

/-- Successful run of the vertex pruner, fully characterised. -/
theorem pruneVertices_eq (m : Mesh)
    (hcb : m.cells ≠ []) (hbe : ∀ c ∈ m.cells, c.cells ≠ [])
    (hids : ∀ v ∈ cellIds m, v < m.points.length)
    (hpdlen : ∀ nv ∈ m.point_data, ∀ i ∈ dedupSort (cellIds m), i < nv.2.length) :
    pruneVertices m = some (Mesh.mk
      ((dedupSort (cellIds m)).map (fun v => m.points.getD v []))
      (m.cells.map (fun c => CellBlock.mk c.type (c.cells.map (fun t =>
          t.map (fun v => (dedupSort (cellIds m)).indexOf v)))))
      (m.point_data.map (fun kv =>
        (kv.1, (dedupSort (cellIds m)).map (fun i => kv.2.getD i 0))))
      m.cell_data) := by
  have h1 := mapM_blocks_some m.cells hbe
  have h2 : npConcat1 (m.cells.map (fun c => c.cells.flatten)) = some (cellIds m) := by
    have hne : m.cells.map (fun c => c.cells.flatten) ≠ [] :=
      fun hx => hcb (List.map_eq_nil.mp hx)
    rw [npConcat1_some_of_ne hne]
    rfl
  have h3 : subsetIdx m.points (dedupSort (cellIds m))
      = some ((dedupSort (cellIds m)).map (fun v => m.points.getD v [])) :=
    subsetIdx_some m.points [] (dedupSort (cellIds m))
      (fun i hi => hids i ((mem_dedupSort i _).mp hi))
  have h4 := pd_mapM_some (dedupSort (cellIds m)) m.point_data hpdlen
  unfold pruneVertices
  rw [h1]
  show (npConcat1 (m.cells.map fun c => c.cells.flatten)).bind _ = _
  rw [h2]
  show (subsetIdx m.points (dedupSort (cellIds m))).bind _ = _
  rw [h3]
  show (m.point_data.mapM fun kv =>
      (subsetIdx kv.2 (dedupSort (cellIds m))).map fun a => (kv.1, a)).bind _ = _
  rw [h4]
  rfl

/-- Inversion: a successful run of the vertex pruner implies the shape
preconditions and determines the output mesh completely. -/
theorem pruneVertices_inv (m m' : Mesh) (h : pruneVertices m = some m') :
    m.cells ≠ [] ∧ (∀ c ∈ m.cells, c.cells ≠ []) ∧
    (∀ v ∈ cellIds m, v < m.points.length) ∧
    (∀ nv ∈ m.point_data, ∀ i ∈ dedupSort (cellIds m), i < nv.2.length) ∧
    m' = Mesh.mk
      ((dedupSort (cellIds m)).map (fun v => m.points.getD v []))
      (m.cells.map (fun c => CellBlock.mk c.type (c.cells.map (fun t =>
          t.map (fun v => (dedupSort (cellIds m)).indexOf v)))))
      (m.point_data.map (fun kv =>
        (kv.1, (dedupSort (cellIds m)).map (fun i => kv.2.getD i 0))))
      m.cell_data := by
  unfold pruneVertices at h
  obtain ⟨bf, hbf, h⟩ := Option.bind_eq_some.mp h
  obtain ⟨hbe, rfl⟩ := mapM_blocks_inv m.cells bf hbf
  obtain ⟨nc, hnc, h⟩ := Option.bind_eq_some.mp h
  obtain ⟨hne, rfl⟩ := npConcat1_inv hnc
  have hcb : m.cells ≠ [] := fun hx => hne (by rw [hx]; rfl)
  have hcid : (m.cells.map (fun c => c.cells.flatten)).flatten = cellIds m := rfl
  rw [hcid] at h
  obtain ⟨pts', hpts, h⟩ := Option.bind_eq_some.mp h
  obtain ⟨hidx, rfl⟩ := subsetIdx_inv m.points [] (dedupSort (cellIds m)) pts' hpts
  obtain ⟨pd', hpd, h⟩ := Option.bind_eq_some.mp h
  obtain ⟨hpdb, rfl⟩ := pd_mapM_inv (dedupSort (cellIds m)) m.point_data pd' hpd
  simp only [pure, Option.some.injEq] at h
  refine ⟨hcb, hbe, ?_, hpdb, h.symm⟩
  intro v hv
  exact hidx v ((mem_dedupSort v _).mpr hv)

theorem mem_cellIds (m : Mesh) (v : Nat) : v ∈ cellIds m ↔ Referenced m v := by
  simp only [cellIds, Referenced, List.mem_flatten, List.mem_map]
  constructor
  · rintro ⟨l, ⟨c, hc, rfl⟩, hv⟩
    rcases List.mem_flatten.mp hv with ⟨t, ht, hvt⟩
    exact ⟨c, hc, t, ht, hvt⟩
  · rintro ⟨c, hc, t, ht, hvt⟩
    exact ⟨c.cells.flatten, ⟨c, hc, rfl⟩, List.mem_flatten.mpr ⟨t, ht, hvt⟩⟩

theorem map_self_of_id {α : Type} {f : α → α} :
    ∀ {l : List α}, (∀ x ∈ l, f x = x) → l.map f = l
  | [], _ => rfl
  | a :: l, h => by
    rw [List.map_cons, h a (List.mem_cons_self a l),
      map_self_of_id (fun x hx => h x (List.mem_cons_of_mem a hx))]

/-- C4: with `prune_vertices` enabled, the pruner compacts the vertex index
space: there is an ascending-sorted list `R` of exactly the referenced point
ids such that the i-th smallest referenced id is mapped to new id i, every
cell tuple is rewritten through that map, the point array and every per-point
data array are subset to the rows of `R` in ascending order (so unreferenced
points and their data are discarded), and every resulting cell vertex index is
strictly below the new number of points. -/
theorem prune_vertices_compacts (m : Mesh)
    (hcb : m.cells ≠ []) (hbe : ∀ c ∈ m.cells, c.cells ≠ [])
    (hids : ∀ v ∈ cellIds m, v < m.points.length)
    (hpd : ∀ nv ∈ m.point_data, nv.2.length = m.points.length) :
    ∃ R : List Nat, ∃ m' : Mesh,
      pruneVertices m = some m' ∧
      List.Sorted (· < ·) R ∧
      (∀ v, v ∈ R ↔ Referenced m v) ∧
      (∀ i : Fin R.length, R.indexOf (R.get i) = i) ∧
      m'.points = R.map (fun v => m.points.getD v []) ∧
      m'.point_data = m.point_data.map
        (fun kv => (kv.1, R.map (fun i => kv.2.getD i 0))) ∧
      m'.cells = m.cells.map (fun c => CellBlock.mk c.type
        (c.cells.map (fun t => t.map (fun v => R.indexOf v)))) ∧
      m'.cell_data = m.cell_data ∧
      ∀ c ∈ m'.cells, ∀ t ∈ c.cells, ∀ w ∈ t, w < m'.points.length := by
  have hpdlen : ∀ nv ∈ m.point_data, ∀ i ∈ dedupSort (cellIds m), i < nv.2.length := by
    intro nv hnv i hi
    rw [hpd nv hnv]
    exact hids i ((mem_dedupSort i _).mp hi)
  have heq := pruneVertices_eq m hcb hbe hids hpdlen
  refine ⟨dedupSort (cellIds m), _, heq, sorted_dedupSort _, ?_, ?_, rfl, rfl, rfl, rfl, ?_⟩
  · intro v
    rw [mem_dedupSort]
    exact mem_cellIds m v
  · intro i
    exact List.get_indexOf (sorted_dedupSort (cellIds m)).nodup i
  · intro c hc t ht w hw
    rcases List.mem_map.mp hc with ⟨c0, hc0, rfl⟩
    rcases List.mem_map.mp ht with ⟨t0, ht0, rfl⟩
    rcases List.mem_map.mp hw with ⟨v, hv, rfl⟩
    show List.indexOf v (dedupSort (cellIds m))
      < ((dedupSort (cellIds m)).map (fun v => m.points.getD v [])).length
    rw [List.length_map]
    refine List.indexOf_lt_length.mpr ?_
    rw [mem_dedupSort]
    exact (mem_cellIds m v).mpr ⟨c0, hc0, t0, ht0, hv⟩

/-- Concrete instantiation of the pruner-compaction theorem on `exMesh`. -/
theorem prune_vertices_compacts_witness :
    ∃ R : List Nat, ∃ m' : Mesh,
      pruneVertices exMesh = some m' ∧
      List.Sorted (· < ·) R ∧
      (∀ v, v ∈ R ↔ Referenced exMesh v) ∧
      (∀ i : Fin R.length, R.indexOf (R.get i) = i) ∧
      m'.points = R.map (fun v => exMesh.points.getD v []) ∧
      m'.point_data = exMesh.point_data.map
        (fun kv => (kv.1, R.map (fun i => kv.2.getD i 0))) ∧
      m'.cells = exMesh.cells.map (fun c => CellBlock.mk c.type
        (c.cells.map (fun t => t.map (fun v => R.indexOf v)))) ∧
      m'.cell_data = exMesh.cell_data ∧
      ∀ c ∈ m'.cells, ∀ t ∈ c.cells, ∀ w ∈ t, w < m'.points.length :=
  prune_vertices_compacts exMesh (by decide) (by decide) (by decide) (by decide)

/-- C7: the vertex-pruning stage is idempotent: for every mesh, applying the
pruner twice yields the same result (points, cells, point data, cell data) as
applying it once — including the failing cases, which fail identically. -/
theorem prune_vertices_idempotent (m : Mesh) :
    (pruneVertices m).bind pruneVertices = pruneVertices m := by
  cases hm : pruneVertices m with
  | none => rfl
  | some m' =>
    show pruneVertices m' = some m'
    obtain ⟨hcb, hbe, hids, hpdb, hmm⟩ := pruneVertices_inv m m' hm
    have hnodup : (dedupSort (cellIds m)).Nodup := (sorted_dedupSort _).nodup
    have hpts : m'.points
        = (dedupSort (cellIds m)).map (fun v => m.points.getD v []) := by rw [hmm]
    have hcls : m'.cells
        = m.cells.map (fun c => CellBlock.mk c.type (c.cells.map (fun t =>
            t.map (fun v => (dedupSort (cellIds m)).indexOf v)))) := by rw [hmm]
    have hpd2 : m'.point_data
        = m.point_data.map (fun kv =>
            (kv.1, (dedupSort (cellIds m)).map (fun i => kv.2.getD i 0))) := by rw [hmm]
    have hptslen : m'.points.length = (dedupSort (cellIds m)).length := by
      rw [hpts, List.length_map]
    have hcid2 : cellIds m'
        = (cellIds m).map (fun v => (dedupSort (cellIds m)).indexOf v) := by
      show (m'.cells.map (fun c => c.cells.flatten)).flatten = _
      rw [hcls]
      exact flatten_remap m.cells (fun v => (dedupSort (cellIds m)).indexOf v)
    have hnew : ∀ x, x ∈ cellIds m' ↔ x < (dedupSort (cellIds m)).length := by
      intro x
      rw [hcid2]
      constructor
      · intro hx
        rcases List.mem_map.mp hx with ⟨v, hv, rfl⟩
        exact List.indexOf_lt_length.mpr ((mem_dedupSort v _).mpr hv)
      · intro hx
        refine List.mem_map.mpr ⟨(dedupSort (cellIds m)).get ⟨x, hx⟩, ?_, ?_⟩
        · exact (mem_dedupSort _ _).mp (List.get_mem _ _ _)
        · exact List.get_indexOf hnodup ⟨x, hx⟩
    have hdS : dedupSort (cellIds m') = List.range (dedupSort (cellIds m)).length := by
      refine sorted_lt_ext (sorted_dedupSort _) (List.sorted_lt_range _) ?_
      intro x
      rw [mem_dedupSort, List.mem_range]
      exact hnew x
    have hcb' : m'.cells ≠ [] := by
      rw [hcls]
      intro h
      exact hcb (List.map_eq_nil_iff.mp h)
    have hbe' : ∀ c ∈ m'.cells, c.cells ≠ [] := by
      rw [hcls]
      intro c hc
      rcases List.mem_map.mp hc with ⟨c0, hc0, rfl⟩
      intro h
      exact hbe c0 hc0 (List.map_eq_nil_iff.mp h)
    have hids' : ∀ v ∈ cellIds m', v < m'.points.length := by
      intro v hv
      rw [hptslen]
      exact (hnew v).mp hv
    have hpdlen' : ∀ nv ∈ m'.point_data, ∀ i ∈ dedupSort (cellIds m'), i < nv.2.length := by
      rw [hpd2, hdS]
      intro nv hnv i hi
      rcases List.mem_map.mp hnv with ⟨kv, hkv, rfl⟩
      show i < ((dedupSort (cellIds m)).map (fun j => kv.2.getD j 0)).length
      rw [List.length_map]
      exact List.mem_range.mp hi
    have hA : (dedupSort (cellIds m')).map (fun v => m'.points.getD v []) = m'.points := by
      rw [hdS, ← hptslen]
      exact getD_range_map [] m'.points
    have hB : m'.cells.map (fun c => CellBlock.mk c.type (c.cells.map (fun t =>
        t.map (fun v => (dedupSort (cellIds m')).indexOf v)))) = m'.cells := by
      refine map_self_of_id ?_
      intro c hc
      have hcl : c.cells.map (fun t =>
          t.map (fun v => (dedupSort (cellIds m')).indexOf v)) = c.cells := by
        refine map_self_of_id ?_
        intro t ht
        refine map_self_of_id ?_
        intro v hv
        rw [hdS]
        refine indexOf_range ?_
        exact (hnew v).mp ((mem_cellIds m' v).mpr ⟨c, hc, t, ht, hv⟩)
      rw [hcl]
    have hC : m'.point_data.map (fun kv =>
        (kv.1, (dedupSort (cellIds m')).map (fun i => kv.2.getD i 0))) = m'.point_data := by
      refine map_self_of_id ?_
      intro kv hkv
      rw [hpd2] at hkv
      rcases List.mem_map.mp hkv with ⟨kv0, hkv0, rfl⟩
      show ((kv0.1, (dedupSort (cellIds m')).map (fun i =>
          ((dedupSort (cellIds m)).map (fun j => kv0.2.getD j 0)).getD i 0)) : String × List ℚ)
        = (kv0.1, (dedupSort (cellIds m)).map (fun j => kv0.2.getD j 0))
      rw [hdS]
      congr 1
      have hlen : (dedupSort (cellIds m)).length
          = ((dedupSort (cellIds m)).map (fun j => kv0.2.getD j 0)).length := by
        rw [List.length_map]
      rw [hlen]
      exact getD_range_map 0 _
    rw [pruneVertices_eq m' hcb' hbe' hids' hpdlen', hA, hB, hC]
